import Mathlib

/-!
Verification of the `cloak` country-IP-blocklist generator (src/main.rs).

The pipeline fetches per-country CIDR feeds, parses each line with
Rust's `str::parse::<ipnetwork::IpNetwork>()`, stores the results in a
map keyed by country code, serializes the map to JSON, and renders an
nftables rule file.

Text is modelled as `List Char`.  The address parser embeds Rust
`core::net::parser` (the code behind `Ipv4Addr::from_str` and
`Ipv6Addr::from_str`), the address formatter embeds the `Display`
implementations of `Ipv4Addr` / `Ipv6Addr` (RFC 5952 zero-run
compression with the IPv4-mapped special case), and the network layer
embeds the `ipnetwork` crate's `FromStr` / `Display` implementations.
-/

set_option maxHeartbeats 1600000

/-- Rust `char::to_digit(radix)`: decimal digits first, then (for radix
above ten) letters case-folded via bit-or with 0x20. -/
def charToDigit (radix : Nat) (c : Char) : Option Nat :=
  let n := c.toNat
  if 48 ≤ n ∧ n ≤ 57 then
    if n - 48 < radix then some (n - 48) else none
  else if 10 < radix then
    let m := n ||| 32
    if 97 ≤ m ∧ m ≤ 122 then
      if m - 97 + 10 < radix then some (m - 97 + 10) else none
    else none
  else none

/-- Rust core formatting digit table (lowercase hex), as used by the
`{:x}` and `{}` integer formatters. -/
def digitChar : Nat → Char
  | 0 => '0' | 1 => '1' | 2 => '2' | 3 => '3' | 4 => '4'
  | 5 => '5' | 6 => '6' | 7 => '7' | 8 => '8' | 9 => '9'
  | 10 => 'a' | 11 => 'b' | 12 => 'c' | 13 => 'd' | 14 => 'e' | 15 => 'f'
  | _ => '*'

/-- Fuel-driven most-significant-first digit expansion (the loop inside
Rust's integer `Display`/`LowerHex` formatting). -/
def toDigitsAux (b : Nat) : Nat → Nat → List Nat → List Nat
  | 0, _, acc => acc
  | fuel + 1, n, acc =>
    if n < b then n :: acc else toDigitsAux b fuel (n / b) (n % b :: acc)

/-- Most-significant-first base-`b` digits of `n` (`[0]` for zero). -/
def natDigits (b n : Nat) : List Nat := toDigitsAux b (n + 1) n []

/-- Rust integer formatting of `n` in base `b` (lowercase). -/
def printBase (b n : Nat) : List Char := (natDigits b n).map digitChar

/-- Value of a most-significant-first digit list, as accumulated by the
read loop of `Parser::read_number`. -/
def digitsVal (b : Nat) (ds : List Nat) : Nat :=
  ds.foldl (fun acc d => acc * b + d) 0

theorem toDigitsAux_acc (b : Nat) :
    ∀ (fuel n : Nat) (acc : List Nat),
      toDigitsAux b fuel n acc = toDigitsAux b fuel n [] ++ acc
  | 0, _, _ => by simp [toDigitsAux]
  | fuel + 1, n, acc => by
    simp only [toDigitsAux]
    split
    · simp
    · rw [toDigitsAux_acc b fuel (n / b) (n % b :: acc),
        toDigitsAux_acc b fuel (n / b) [n % b]]
      simp

theorem toDigitsAux_fuel (b : Nat) (hb : 2 ≤ b) :
    ∀ (n : Nat), ∀ (f1 f2 : Nat), n < f1 → n < f2 → ∀ (acc : List Nat),
      toDigitsAux b f1 n acc = toDigitsAux b f2 n acc := by
  intro n
  induction n using Nat.strong_induction_on with
  | _ n ih =>
    intro f1 f2 h1 h2 acc
    match f1, f2 with
    | g1 + 1, g2 + 1 =>
      simp only [toDigitsAux]
      split
      · rfl
      · have hnb : ¬ n < b := by assumption
        have hn0 : 0 < n := by omega
        have hdiv : n / b < n := Nat.div_lt_self hn0 (by omega)
        exact ih (n / b) hdiv g1 g2 (by omega) (by omega) _

theorem natDigits_eq_digits (b : Nat) (hb : 2 ≤ b) (n : Nat) (hn : n ≠ 0) :
    natDigits b n = (Nat.digits b n).reverse := by
  suffices h : ∀ (m : Nat), m ≠ 0 → ∀ fuel, m < fuel → ∀ acc,
      toDigitsAux b fuel m acc = (Nat.digits b m).reverse ++ acc by
    have := h n hn (n + 1) (by omega) []
    simpa [natDigits] using this
  intro m
  induction m using Nat.strong_induction_on with
  | _ m ih =>
    intro hm fuel hf acc
    match fuel with
    | g + 1 =>
      simp only [toDigitsAux]
      have hd : Nat.digits b m = m % b :: Nat.digits b (m / b) :=
        Nat.digits_def' (by omega) (by omega)
      by_cases hmb : m < b
      · simp only [if_pos hmb, hd]
        have : m / b = 0 := Nat.div_eq_of_lt hmb
        rw [this]
        simp [Nat.mod_eq_of_lt hmb]
      · simp only [if_neg hmb]
        have hq0 : m / b ≠ 0 := by
          intro h0
          have := (Nat.div_eq_zero_iff (by omega : 0 < b)).mp h0
          omega
        have hqlt : m / b < m := Nat.div_lt_self (by omega) (by omega)
        rw [ih (m / b) hqlt hq0 g (by omega) (m % b :: acc), hd]
        simp

theorem digitsVal_reverse (b : Nat) (L : List Nat) :
    digitsVal b L.reverse = Nat.ofDigits b L := by
  induction L with
  | nil => simp [digitsVal]
  | cons d L ih =>
    have : digitsVal b (L.reverse ++ [d]) = digitsVal b L.reverse * b + d := by
      simp [digitsVal, List.foldl_append]
    simp only [List.reverse_cons, this, ih, Nat.ofDigits_cons]
    ring

theorem natDigits_zero (b : Nat) : natDigits b 0 = [0] := by
  by_cases hb : 0 < b <;> simp [natDigits, toDigitsAux, hb]

theorem digitsVal_natDigits (b : Nat) (hb : 2 ≤ b) (n : Nat) :
    digitsVal b (natDigits b n) = n := by
  by_cases hn : n = 0
  · subst hn
    rw [natDigits_zero b]
    simp [digitsVal]
  · rw [natDigits_eq_digits b hb n hn, digitsVal_reverse]
    exact Nat.ofDigits_digits b n

theorem natDigits_ne_nil (b : Nat) (hb : 2 ≤ b) (n : Nat) :
    natDigits b n ≠ [] := by
  by_cases hn : n = 0
  · subst hn; rw [natDigits_zero b]; simp
  · rw [natDigits_eq_digits b hb n hn]
    simpa using (Nat.digits_ne_nil_iff_ne_zero).mpr hn

theorem natDigits_head_ne_zero (b : Nat) (hb : 2 ≤ b) (n : Nat) (hn : n ≠ 0) :
    ∀ d, (natDigits b n).head? = some d → d ≠ 0 := by
  intro d hd
  rw [natDigits_eq_digits b hb n hn, List.head?_reverse] at hd
  have hne : Nat.digits b n ≠ [] := (Nat.digits_ne_nil_iff_ne_zero).mpr hn
  rw [List.getLast?_eq_getLast _ hne, Option.some_inj] at hd
  exact hd ▸ Nat.getLast_digit_ne_zero b hn

theorem natDigits_length_le (b : Nat) (hb : 2 ≤ b) (n k : Nat)
    (hk : 1 ≤ k) (h : n < b ^ k) : (natDigits b n).length ≤ k := by
  by_cases hn : n = 0
  · subst hn; rw [natDigits_zero b]; simpa using hk
  · rw [natDigits_eq_digits b hb n hn, List.length_reverse]
    have hlen : (Nat.digits b n).length = Nat.log b n + 1 :=
      Nat.digits_len b n (by omega) hn
    have hlog : Nat.log b n < k := (Nat.lt_pow_iff_log_lt (by omega) hn).mp h
    omega

theorem natDigits_lt (b : Nat) (hb : 2 ≤ b) (n : Nat) :
    ∀ d ∈ natDigits b n, d < b := by
  intro d hd
  by_cases hn : n = 0
  · subst hn; rw [natDigits_zero b] at hd
    simp at hd; omega
  · rw [natDigits_eq_digits b hb n hn, List.mem_reverse] at hd
    exact Nat.digits_lt_base (by omega) hd

theorem charToDigit_digitChar_ball :
    ∀ r < 17, ∀ d < r, charToDigit r (digitChar d) = some d := by decide

theorem charToDigit_digitChar (r : Nat) (hr : r ≤ 16) (d : Nat) (hd : d < r) :
    charToDigit r (digitChar d) = some d :=
  charToDigit_digitChar_ball r (by omega) d hd

/-- Greedy digit scan of `Parser::read_number`: consume characters while
`char::to_digit(radix)` succeeds, returning digit values and the rest. -/
def takeDigits (radix : Nat) : List Char → (List Nat × List Char)
  | [] => ([], [])
  | c :: rest =>
    match charToDigit radix c with
    | some d =>
      let p := takeDigits radix rest
      (d :: p.1, p.2)
    | none => ([], c :: rest)

/-- Rust `Parser::read_number(radix, Some(maxDigits), allowZeroPre)` for an
unsigned integer type with maximum value `typeMax`:  fails on an empty digit
run, on more than `maxDigits` digits, on checked-arithmetic overflow (which,
at the call sites' digit bounds, is exactly `value > typeMax`), and on a
forbidden leading zero. -/
def read_number (radix maxDigits typeMax : Nat) (allowZeroPre : Bool)
    (l : List Char) : Option (Fin (typeMax + 1) × List Char) :=
  let p := takeDigits radix l
  let ds := p.1
  if ds = [] then none
  else if ds.length > maxDigits then none
  else if h : digitsVal radix ds > typeMax then none
  else if allowZeroPre = false ∧ ds.head? = some 0 ∧ ds.length > 1 then none
  else some (⟨digitsVal radix ds, by omega⟩, p.2)

/-- Rust `Parser::read_given_char`. -/
def expectChar (c : Char) : List Char → Option (List Char)
  | [] => none
  | c' :: rest => if c' = c then some rest else none

/-- Four octets, as in `core::net::Ipv4Addr` (a `u8` quadruple). -/
structure Ipv4Addr where
  o1 : Fin 256
  o2 : Fin 256
  o3 : Fin 256
  o4 : Fin 256
deriving DecidableEq

/-- Rust `Parser::read_ipv4_addr`: four decimal octets (at most three
digits, no leading zero) separated by dots. -/
def read_ipv4_addr (l : List Char) : Option (Ipv4Addr × List Char) := do
  let p1 ← read_number 10 3 255 false l
  let r2 ← expectChar '.' p1.2
  let p3 ← read_number 10 3 255 false r2
  let r4 ← expectChar '.' p3.2
  let p5 ← read_number 10 3 255 false r4
  let r6 ← expectChar '.' p5.2
  let p7 ← read_number 10 3 255 false r6
  some (⟨p1.1, p3.1, p5.1, p7.1⟩, p7.2)

/-- Rust `Ipv4Addr::from_str`: `read_ipv4_addr` must consume the input. -/
def parseIpv4Addr (l : List Char) : Option Ipv4Addr :=
  match read_ipv4_addr l with
  | some (a, []) => some a
  | _ => none

/-- Rust `Display for Ipv4Addr`: dotted decimal. -/
def printIpv4 (a : Ipv4Addr) : List Char :=
  printBase 10 a.o1.val ++ '.' ::
    (printBase 10 a.o2.val ++ '.' ::
      (printBase 10 a.o3.val ++ '.' :: printBase 10 a.o4.val))

/-- True when the list is empty or does not start with a digit of the
given radix; under this side condition a greedy digit scan stops. -/
def headNotDigit (radix : Nat) : List Char → Bool
  | [] => true
  | c :: _ => (charToDigit radix c).isNone

theorem takeDigits_map_digitChar (radix : Nat) (hr : radix ≤ 16) :
    ∀ (ds : List Nat), (∀ d ∈ ds, d < radix) →
      ∀ (rest : List Char), headNotDigit radix rest = true →
        takeDigits radix (ds.map digitChar ++ rest) = (ds, rest) := by
  intro ds
  induction ds with
  | nil =>
    intro _ rest hrest
    match rest with
    | [] => rfl
    | c :: t =>
      simp only [headNotDigit, Option.isNone_iff_eq_none] at hrest
      simp [takeDigits, hrest]
  | cons d ds ih =>
    intro hds rest hrest
    have hd : d < radix := hds d (by simp)
    have h1 : charToDigit radix (digitChar d) = some d :=
      charToDigit_digitChar radix hr d hd
    simp only [List.map_cons, List.cons_append, takeDigits, h1]
    have ih2 := ih (fun x hx => hds x (by simp [hx])) rest hrest
    simp only [List.append_eq]
    rw [ih2]

theorem takeDigits_consumed (radix : Nat) :
    ∀ (l : List Char) (ds : List Nat) (rest : List Char),
      takeDigits radix l = (ds, rest) →
      ∃ cs, l = cs ++ rest ∧ ∀ c ∈ cs, (charToDigit radix c).isSome := by
  intro l
  induction l with
  | nil =>
    intro ds rest h
    simp only [takeDigits] at h
    cases h
    exact ⟨[], by simp, by simp⟩
  | cons c t ih =>
    intro ds rest h
    simp only [takeDigits] at h
    cases hc : charToDigit radix c with
    | some d =>
      rw [hc] at h
      obtain ⟨cs, hcs, hall⟩ := ih (takeDigits radix t).1 (takeDigits radix t).2 rfl
      cases h
      refine ⟨c :: cs, congrArg (List.cons c) hcs, ?_⟩
      intro x hx
      rcases List.mem_cons.mp hx with hx | hx
      · subst hx; simp [hc]
      · exact hall x hx
    | none =>
      rw [hc] at h
      cases h
      exact ⟨[], by simp, by simp⟩

theorem headNotDigit_dot (l : List Char) : headNotDigit 10 ('.' :: l) = true := by
  simp [headNotDigit]
  decide

theorem read_number_printed (radix maxDigits typeMax : Nat) (allowZeroPre : Bool)
    (hr2 : 2 ≤ radix) (hr16 : radix ≤ 16) (n : Nat) (hn : n ≤ typeMax)
    (hlen : (natDigits radix n).length ≤ maxDigits)
    (rest : List Char) (hrest : headNotDigit radix rest = true) :
    read_number radix maxDigits typeMax allowZeroPre (printBase radix n ++ rest) =
      some (⟨n, by omega⟩, rest) := by
  have hlt : ∀ d ∈ natDigits radix n, d < radix := natDigits_lt radix hr2 n
  have hne : natDigits radix n ≠ [] := natDigits_ne_nil radix hr2 n
  have hval : digitsVal radix (natDigits radix n) = n := digitsVal_natDigits radix hr2 n
  simp only [read_number, printBase]
  simp only [takeDigits_map_digitChar radix hr16 (natDigits radix n) hlt rest hrest]
  simp only [if_neg hne]
  rw [if_neg (by omega : ¬ (natDigits radix n).length > maxDigits)]
  rw [dif_neg (by rw [hval]; omega : ¬ digitsVal radix (natDigits radix n) > typeMax)]
  rw [if_neg ?hz]
  case hz =>
    rintro ⟨-, hhead, hlen1⟩
    by_cases hn0 : n = 0
    · subst hn0
      rw [natDigits_zero radix] at hlen1
      simp at hlen1
    · exact natDigits_head_ne_zero radix hr2 n hn0 0 hhead rfl
  simp [Fin.ext_iff, hval]

theorem read_number_not_digit (radix maxDigits typeMax : Nat) (allowZeroPre : Bool)
    (l : List Char) (h : headNotDigit radix l = true) :
    read_number radix maxDigits typeMax allowZeroPre l = none := by
  match l with
  | [] => rfl
  | c :: t =>
    simp only [headNotDigit, Option.isNone_iff_eq_none] at h
    simp [read_number, takeDigits, h]

theorem read_number_rest (radix maxDigits typeMax : Nat) (allowZeroPre : Bool)
    (l : List Char) (v : Fin (typeMax + 1)) (r : List Char)
    (h : read_number radix maxDigits typeMax allowZeroPre l = some (v, r)) :
    ∃ cs, l = cs ++ r ∧ ∀ c ∈ cs, (charToDigit radix c).isSome := by
  simp only [read_number] at h
  split at h
  · exact absurd h (by simp)
  · split at h
    · exact absurd h (by simp)
    · split at h
      · exact absurd h (by simp)
      · split at h
        · exact absurd h (by simp)
        · have hr : r = (takeDigits radix l).2 := by
            have := congrArg (fun o => Option.map Prod.snd o) h
            simpa using this.symm
          subst hr
          exact takeDigits_consumed radix l (takeDigits radix l).1
            (takeDigits radix l).2 rfl

theorem expectChar_not_mem (c : Char) (l : List Char) (h : c ∉ l) :
    expectChar c l = none := by
  match l with
  | [] => rfl
  | c' :: t =>
    have : c' ≠ c := fun he => h (by simp [he])
    simp [expectChar, this]

theorem expectChar_some (c : Char) (l r : List Char)
    (h : expectChar c l = some r) : l = c :: r := by
  match l with
  | [] => exact absurd h (by simp [expectChar])
  | c' :: t =>
    by_cases hc : c' = c
    · subst hc
      simp [expectChar] at h
      rw [h]
    · simp [expectChar, hc] at h

theorem octet_digits_le (x : Fin 256) : (natDigits 10 x.val).length ≤ 3 := by
  refine natDigits_length_le 10 (by omega) x.val 3 (by omega) ?_
  have := x.isLt
  norm_num
  omega

theorem expectChar_cons_self (c : Char) (l : List Char) :
    expectChar c (c :: l) = some l := by
  simp [expectChar]

theorem read_ipv4_printed (a : Ipv4Addr) (rest : List Char)
    (hrest : headNotDigit 10 rest = true) :
    read_ipv4_addr (printIpv4 a ++ rest) = some (a, rest) := by
  obtain ⟨o1, o2, o3, o4⟩ := a
  have h1 := read_number_printed 10 3 255 false (by omega) (by omega) o1.val
    (by have := o1.isLt; omega) (octet_digits_le o1)
  have h2 := read_number_printed 10 3 255 false (by omega) (by omega) o2.val
    (by have := o2.isLt; omega) (octet_digits_le o2)
  have h3 := read_number_printed 10 3 255 false (by omega) (by omega) o3.val
    (by have := o3.isLt; omega) (octet_digits_le o3)
  have h4 := read_number_printed 10 3 255 false (by omega) (by omega) o4.val
    (by have := o4.isLt; omega) (octet_digits_le o4)
  simp only [printIpv4, List.append_assoc, List.cons_append]
  simp only [read_ipv4_addr, Option.bind_eq_bind]
  rw [h1 _ (headNotDigit_dot _)]
  simp only [Option.some_bind, expectChar_cons_self]
  rw [h2 _ (headNotDigit_dot _)]
  simp only [Option.some_bind, expectChar_cons_self]
  rw [h3 _ (headNotDigit_dot _)]
  simp only [Option.some_bind, expectChar_cons_self]
  rw [h4 rest hrest]
  simp only [Option.some_bind]

theorem parseIpv4Addr_printed (a : Ipv4Addr) :
    parseIpv4Addr (printIpv4 a) = some a := by
  have h := read_ipv4_printed a [] rfl
  rw [List.append_nil] at h
  simp [parseIpv4Addr, h]

theorem read_ipv4_noDot (l : List Char) (h : '.' ∉ l) :
    read_ipv4_addr l = none := by
  simp only [read_ipv4_addr]
  cases h1 : read_number 10 3 255 false l with
  | none => simp
  | some p =>
    obtain ⟨v, r1⟩ := p
    obtain ⟨cs, hcs, -⟩ := read_number_rest 10 3 255 false l v r1 h1
    have hr1 : '.' ∉ r1 := fun hm => h (hcs ▸ List.mem_append_right cs hm)
    simp [expectChar_not_mem '.' r1 hr1]

theorem read_ipv4_consumed (l : List Char) (a : Ipv4Addr) (r : List Char)
    (h : read_ipv4_addr l = some (a, r)) :
    ∃ cs, l = cs ++ r ∧ ∀ c ∈ cs, (charToDigit 10 c).isSome ∨ c = '.' := by
  simp only [read_ipv4_addr, Option.bind_eq_bind] at h
  cases e1 : read_number 10 3 255 false l with
  | none => rw [e1] at h; simp at h
  | some p1 =>
  obtain ⟨v1, r1⟩ := p1
  rw [e1] at h
  simp only [Option.some_bind] at h
  cases e2 : expectChar '.' r1 with
  | none => rw [e2] at h; simp at h
  | some r2 =>
  rw [e2] at h
  simp only [Option.some_bind] at h
  cases e3 : read_number 10 3 255 false r2 with
  | none => rw [e3] at h; simp at h
  | some p3 =>
  obtain ⟨v3, r3⟩ := p3
  rw [e3] at h
  simp only [Option.some_bind] at h
  cases e4 : expectChar '.' r3 with
  | none => rw [e4] at h; simp at h
  | some r4 =>
  rw [e4] at h
  simp only [Option.some_bind] at h
  cases e5 : read_number 10 3 255 false r4 with
  | none => rw [e5] at h; simp at h
  | some p5 =>
  obtain ⟨v5, r5⟩ := p5
  rw [e5] at h
  simp only [Option.some_bind] at h
  cases e6 : expectChar '.' r5 with
  | none => rw [e6] at h; simp at h
  | some r6 =>
  rw [e6] at h
  simp only [Option.some_bind] at h
  cases e7 : read_number 10 3 255 false r6 with
  | none => rw [e7] at h; simp at h
  | some p7 =>
  obtain ⟨v7, r7⟩ := p7
  rw [e7] at h
  simp only [Option.some_bind, Option.some_inj] at h
  have hr : r7 = r := congrArg Prod.snd h
  subst hr
  obtain ⟨c1, hc1, hd1⟩ := read_number_rest _ _ _ _ _ _ _ e1
  obtain ⟨c3, hc3, hd3⟩ := read_number_rest _ _ _ _ _ _ _ e3
  obtain ⟨c5, hc5, hd5⟩ := read_number_rest _ _ _ _ _ _ _ e5
  obtain ⟨c7, hc7, hd7⟩ := read_number_rest _ _ _ _ _ _ _ e7
  have hs2 := expectChar_some '.' r1 r2 e2
  have hs4 := expectChar_some '.' r3 r4 e4
  have hs6 := expectChar_some '.' r5 r6 e6
  refine ⟨c1 ++ '.' :: (c3 ++ '.' :: (c5 ++ '.' :: c7)), ?_, ?_⟩
  · rw [hc1, hs2, hc3, hs4, hc5, hs6, hc7]
    simp
  · intro c hc
    simp only [List.mem_append, List.mem_cons] at hc
    rcases hc with h' | h' | h' | h' | h' | h' | h'
    · exact Or.inl (hd1 c h')
    · exact Or.inr h'
    · exact Or.inl (hd3 c h')
    · exact Or.inr h'
    · exact Or.inl (hd5 c h')
    · exact Or.inr h'
    · exact Or.inl (hd7 c h')

/-- Eight 16-bit groups, as in `core::net::Ipv6Addr`. -/
structure Ipv6Addr where
  s0 : Fin 65536
  s1 : Fin 65536
  s2 : Fin 65536
  s3 : Fin 65536
  s4 : Fin 65536
  s5 : Fin 65536
  s6 : Fin 65536
  s7 : Fin 65536
deriving DecidableEq

def Ipv6Addr.segments (a : Ipv6Addr) : List (Fin 65536) :=
  [a.s0, a.s1, a.s2, a.s3, a.s4, a.s5, a.s6, a.s7]

/-- Build an address from exactly eight groups (the Rust code uses a
fixed `[u16; 8]`, so the non-eight case never arises on its paths). -/
def Ipv6Addr.ofSegments : List (Fin 65536) → Option Ipv6Addr
  | [a, b, c, d, e, f, g, h] => some ⟨a, b, c, d, e, f, g, h⟩
  | _ => none

/-- Rust `Parser::read_separator(':', i, inner)`: for the first slot no
separator is consumed, afterwards a `':'` must precede the item. -/
def read_separator {α : Type} (isFirst : Bool)
    (inner : List Char → Option (α × List Char)) (l : List Char) :
    Option (α × List Char) :=
  match isFirst with
  | true => inner l
  | false =>
    match l with
    | ':' :: rest => inner rest
    | _ => none

/-- `u16::from_be_bytes([o1, o2])` for an embedded IPv4 address. -/
def v4GroupHi (a : Ipv4Addr) : Fin 65536 :=
  ⟨a.o1.val * 256 + a.o2.val, by have := a.o1.isLt; have := a.o2.isLt; omega⟩

/-- `u16::from_be_bytes([o3, o4])` for an embedded IPv4 address. -/
def v4GroupLo (a : Ipv4Addr) : Fin 65536 :=
  ⟨a.o3.val * 256 + a.o4.val, by have := a.o3.isLt; have := a.o4.isLt; omega⟩

/-- Rust `read_ipv6_addr::read_groups`, tracking the remaining slot
count instead of the slice index: a trailing embedded IPv4 address is
attempted whenever at least two slots remain (`i < limit - 1`), then a
hex group of at most four digits; the boolean reports the embedded-IPv4
case.  Returns the groups read and the unconsumed input. -/
def read_groups : Nat → Bool → List Char → (List (Fin 65536) × Bool × List Char)
  | 0, _, l => ([], false, l)
  | r + 1, isFirst, l =>
    match (if 1 ≤ r then read_separator isFirst read_ipv4_addr l else none) with
    | some (v4, rest) => ([v4GroupHi v4, v4GroupLo v4], true, rest)
    | none =>
      match read_separator isFirst (read_number 16 4 65535 true) l with
      | some (g, rest) =>
        let t := read_groups r false rest
        (g :: t.1, t.2.1, t.2.2)
      | none => ([], false, l)

/-- Rust `Parser::read_ipv6_addr`: up to eight head groups (returned
as-is when all eight are read), else no embedded IPv4 before `::`, a
literal `::`, and a tail read into the remaining slots; the groups not
covered by head or tail stay zero. -/
def read_ipv6_addr (l : List Char) : Option (Ipv6Addr × List Char) :=
  let hd := read_groups 8 true l
  if hd.1.length = 8 then
    (Ipv6Addr.ofSegments hd.1).map (fun a => (a, hd.2.2))
  else if hd.2.1 then none
  else
    match hd.2.2 with
    | ':' :: ':' :: r2 =>
      let limit := 8 - (hd.1.length + 1)
      let tl := read_groups limit true r2
      (Ipv6Addr.ofSegments
          (hd.1 ++ List.replicate (8 - hd.1.length - tl.1.length) 0 ++ tl.1)).map
        (fun a => (a, tl.2.2))
    | _ => none

/-- Rust `Ipv6Addr::from_str`: `read_ipv6_addr` must consume the input. -/
def parseIpv6Addr (l : List Char) : Option Ipv6Addr :=
  match read_ipv6_addr l with
  | some (a, []) => some a
  | _ => none

/-- Zero-run scan of `Display for Ipv6Addr`: fold over indexed segments
tracking the current zero span and the longest-so-far (strictly longer
runs win, so the first longest run is kept). -/
def lzrAux : List (Fin 65536) → Nat → (Nat × Nat) → (Nat × Nat) → (Nat × Nat)
  | [], _, long, _ => long
  | x :: xs, i, long, cur =>
    if x = 0 then
      let cs := if cur.2 = 0 then i else cur.1
      let cl := cur.2 + 1
      lzrAux xs (i + 1) (if cl > long.2 then (cs, cl) else long) (cs, cl)
    else lzrAux xs (i + 1) long (0, 0)

def longestZeroRun (segs : List (Fin 65536)) : Nat × Nat :=
  lzrAux segs 0 (0, 0) (0, 0)

/-- Continuation part of `fmt_subslice`: `":{:x}"` per further group. -/
def printGroupsTail (gs : List (Fin 65536)) : List Char :=
  gs.flatMap (fun g => ':' :: printBase 16 g.val)

/-- Rust `fmt_subslice`: first group bare, the rest `':'`-prefixed. -/
def printHexGroups : List (Fin 65536) → List Char
  | [] => []
  | g :: gs => printBase 16 g.val ++ printGroupsTail gs

def printedFrom : Bool → List (Fin 65536) → List Char
  | true, gs => printHexGroups gs
  | false, gs => printGroupsTail gs

/-- Rust `Ipv6Addr::to_ipv4_mapped().is_some()`. -/
def isV4Mapped (a : Ipv6Addr) : Bool :=
  a.s0 == 0 && a.s1 == 0 && a.s2 == 0 && a.s3 == 0 && a.s4 == 0 && a.s5 == 65535

/-- The IPv4 address of a v4-mapped IPv6 address (big-endian bytes of
the last two groups). -/
def mappedV4 (a : Ipv6Addr) : Ipv4Addr :=
  ⟨⟨a.s6.val / 256, by have := a.s6.isLt; omega⟩,
   ⟨a.s6.val % 256, by omega⟩,
   ⟨a.s7.val / 256, by have := a.s7.isLt; omega⟩,
   ⟨a.s7.val % 256, by omega⟩⟩

/-- Rust `Display for Ipv6Addr` (RFC 5952): v4-mapped addresses print
as `::ffff:a.b.c.d`; otherwise the longest run of two or more zero
groups is compressed to `::`, and without such a run all eight groups
are printed. -/
def printIpv6 (a : Ipv6Addr) : List Char :=
  if isV4Mapped a then
    ':' :: ':' :: 'f' :: 'f' :: 'f' :: 'f' :: ':' :: printIpv4 (mappedV4 a)
  else
    let segs := a.segments
    let z := longestZeroRun segs
    if z.2 > 1 then
      printHexGroups (segs.take z.1) ++ ':' :: ':' ::
        printHexGroups (segs.drop (z.1 + z.2))
    else printHexGroups segs

theorem mem_printBase_isHex (radix : Nat) (hr2 : 2 ≤ radix) (hr16 : radix ≤ 16)
    (n : Nat) : ∀ c ∈ printBase radix n, (charToDigit 16 c).isSome := by
  intro c hc
  simp only [printBase, List.mem_map] at hc
  obtain ⟨d, hd, rfl⟩ := hc
  have hdr := natDigits_lt radix hr2 n d hd
  rw [charToDigit_digitChar 16 (le_refl 16) d (by omega)]
  rfl

theorem dot_not_mem_printBase (radix : Nat) (hr2 : 2 ≤ radix) (hr16 : radix ≤ 16)
    (n : Nat) : '.' ∉ printBase radix n := by
  intro h
  have := mem_printBase_isHex radix hr2 hr16 n '.' h
  exact absurd this (by decide)

theorem colon_not_mem_printBase (radix : Nat) (hr2 : 2 ≤ radix) (hr16 : radix ≤ 16)
    (n : Nat) : ':' ∉ printBase radix n := by
  intro h
  have := mem_printBase_isHex radix hr2 hr16 n ':' h
  exact absurd this (by decide)

theorem slash_not_mem_printBase (radix : Nat) (hr2 : 2 ≤ radix) (hr16 : radix ≤ 16)
    (n : Nat) : '/' ∉ printBase radix n := by
  intro h
  have := mem_printBase_isHex radix hr2 hr16 n '/' h
  exact absurd this (by decide)

theorem mem_printIpv4 (a : Ipv4Addr) :
    ∀ c ∈ printIpv4 a, (charToDigit 10 c).isSome ∨ c = '.' := by
  intro c hc
  have hdig : ∀ m : Nat, c ∈ printBase 10 m → (charToDigit 10 c).isSome := by
    intro m hm
    simp only [printBase, List.mem_map] at hm
    obtain ⟨d, hd, rfl⟩ := hm
    have := natDigits_lt 10 (by omega) m d hd
    rw [charToDigit_digitChar 10 (by omega) d (by omega)]
    rfl
  simp only [printIpv4, List.mem_append, List.mem_cons] at hc
  rcases hc with h | h | h | h | h | h | h
  · exact Or.inl (hdig _ h)
  · exact Or.inr h
  · exact Or.inl (hdig _ h)
  · exact Or.inr h
  · exact Or.inl (hdig _ h)
  · exact Or.inr h
  · exact Or.inl (hdig _ h)

theorem dot_not_mem_printGroupsTail (gs : List (Fin 65536)) :
    '.' ∉ printGroupsTail gs := by
  intro h
  simp only [printGroupsTail, List.mem_flatMap, List.mem_cons] at h
  obtain ⟨g, -, h⟩ := h
  rcases h with h | h
  · exact absurd h (by decide)
  · exact dot_not_mem_printBase 16 (by omega) (by omega) g.val h

theorem dot_not_mem_printHexGroups (gs : List (Fin 65536)) :
    '.' ∉ printHexGroups gs := by
  intro h
  match gs with
  | [] => exact absurd h (by simp [printHexGroups])
  | g :: gs =>
    simp only [printHexGroups, List.mem_append] at h
    rcases h with h | h
    · exact dot_not_mem_printBase 16 (by omega) (by omega) g.val h
    · exact dot_not_mem_printGroupsTail gs h

theorem dot_not_mem_printedFrom (isFirst : Bool) (gs : List (Fin 65536)) :
    '.' ∉ printedFrom isFirst gs := by
  cases isFirst
  · exact dot_not_mem_printGroupsTail gs
  · exact dot_not_mem_printHexGroups gs

theorem printedFrom_nil (isFirst : Bool) : printedFrom isFirst [] = [] := by
  cases isFirst <;> rfl

theorem printedFrom_true_cons (g : Fin 65536) (gs : List (Fin 65536)) :
    printedFrom true (g :: gs) = printBase 16 g.val ++ printedFrom false gs := rfl

theorem printedFrom_false_cons (g : Fin 65536) (gs : List (Fin 65536)) :
    printedFrom false (g :: gs) = ':' :: (printBase 16 g.val ++ printedFrom false gs) := by
  simp [printedFrom, printGroupsTail]

/-- Stop side condition for reading a printed group sequence followed by
`rest`: either nothing follows, or a `':'` whose successor cannot start
a hex group (as in `::`). -/
def restStopOk (rest : List Char) : Prop :=
  rest = [] ∨ ∃ t, rest = ':' :: t ∧ headNotDigit 16 t = true

theorem read_ipv4_addr_nil : read_ipv4_addr [] = none := rfl

theorem read_number16_nil : read_number 16 4 65535 true [] = none := rfl

theorem headNotDigit_colon (z : List Char) : headNotDigit 16 (':' :: z) = true := rfl

theorem read_groups_printed (gs : List (Fin 65536)) :
    ∀ (r : Nat) (isFirst : Bool) (rest : List Char),
      gs.length ≤ r → '.' ∉ rest → headNotDigit 16 rest = true →
      (gs.length = r ∨ restStopOk rest) →
      read_groups r isFirst (printedFrom isFirst gs ++ rest) = (gs, false, rest) := by
  induction gs with
  | nil =>
    intro r isFirst rest hr hdot hhex hstop
    rw [printedFrom_nil, List.nil_append]
    match r with
    | 0 => rfl
    | r' + 1 =>
      have hstop2 : restStopOk rest := by
        rcases hstop with h | h
        · simp at h
        · exact h
      have hv4 : read_separator isFirst read_ipv4_addr rest = none := by
        rcases hstop2 with rfl | ⟨t, rfl, ht⟩
        · cases isFirst <;> rfl
        · cases isFirst
          · show read_ipv4_addr t = none
            exact read_ipv4_noDot t (fun hm => hdot (List.mem_cons_of_mem _ hm))
          · show read_ipv4_addr (':' :: t) = none
            exact read_ipv4_noDot _ hdot
      have hv4if : (if 1 ≤ r' then read_separator isFirst read_ipv4_addr rest
          else none) = none := by
        split
        · exact hv4
        · rfl
      have hhexfail : read_separator isFirst (read_number 16 4 65535 true) rest
          = none := by
        cases isFirst
        · rcases hstop2 with rfl | ⟨t, rfl, ht⟩
          · rfl
          · show read_number 16 4 65535 true t = none
            exact read_number_not_digit 16 4 65535 true t ht
        · show read_number 16 4 65535 true rest = none
          exact read_number_not_digit 16 4 65535 true rest hhex
      simp only [read_groups, hv4if, hhexfail]
  | cons g gs ih =>
    intro r isFirst rest hr hdot hhex hstop
    match r with
    | r' + 1 =>
      have hlen : gs.length ≤ r' := by
        simp only [List.length_cons] at hr
        omega
      have hdotM : '.' ∉ printBase 16 g.val ++ (printedFrom false gs ++ rest) := by
        intro h
        rcases List.mem_append.mp h with h | h
        · exact dot_not_mem_printBase 16 (by omega) (by omega) g.val h
        rcases List.mem_append.mp h with h | h
        · exact dot_not_mem_printedFrom false gs h
        · exact hdot h
      have hheadM : headNotDigit 16 (printedFrom false gs ++ rest) = true := by
        match gs with
        | [] => rw [printedFrom_nil, List.nil_append]; exact hhex
        | g2 :: gs2 => rw [printedFrom_false_cons, List.cons_append]; rfl
      have hv4fail : (if 1 ≤ r' then
          read_separator isFirst read_ipv4_addr (printedFrom isFirst (g :: gs) ++ rest)
          else none) = none := by
        split
        · cases isFirst
          · rw [printedFrom_false_cons, List.cons_append]
            show read_ipv4_addr ((printBase 16 g.val ++ printedFrom false gs) ++ rest)
              = none
            refine read_ipv4_noDot _ ?_
            rw [List.append_assoc]
            exact hdotM
          · rw [printedFrom_true_cons]
            show read_ipv4_addr ((printBase 16 g.val ++ printedFrom false gs) ++ rest)
              = none
            refine read_ipv4_noDot _ ?_
            rw [List.append_assoc]
            exact hdotM
        · rfl
      have hrd := read_number_printed 16 4 65535 true (by omega) (by omega) g.val
        (by have := g.isLt; omega)
        (natDigits_length_le 16 (by omega) g.val 4 (by omega)
          (lt_of_lt_of_le g.isLt (by norm_num)))
        (printedFrom false gs ++ rest) hheadM
      have hhexread : read_separator isFirst (read_number 16 4 65535 true)
          (printedFrom isFirst (g :: gs) ++ rest)
          = some (g, printedFrom false gs ++ rest) := by
        cases isFirst
        · rw [printedFrom_false_cons, List.cons_append]
          show read_number 16 4 65535 true
            ((printBase 16 g.val ++ printedFrom false gs) ++ rest)
            = some (g, printedFrom false gs ++ rest)
          rw [List.append_assoc, hrd]
        · rw [printedFrom_true_cons]
          show read_number 16 4 65535 true
            ((printBase 16 g.val ++ printedFrom false gs) ++ rest)
            = some (g, printedFrom false gs ++ rest)
          rw [List.append_assoc, hrd]
      have hstop2 : gs.length = r' ∨ restStopOk rest := by
        rcases hstop with h | h
        · left
          simp only [List.length_cons] at h
          omega
        · right; exact h
      have hih := ih r' false rest hlen hdot hhex hstop2
      simp only [read_groups, hv4fail, hhexread, hih]

theorem read_groups_length_le :
    ∀ (r : Nat) (f : Bool) (l : List Char), (read_groups r f l).1.length ≤ r := by
  intro r
  induction r with
  | zero => intro f l; simp [read_groups]
  | succ r ih =>
    intro f l
    simp only [read_groups]
    split
    · next v4 rest heq =>
      have hr : 1 ≤ r := by
        by_contra hr
        rw [if_neg hr] at heq
        exact Option.noConfusion heq
      simp
      omega
    · split
      · next g rest heq =>
        have := ih false rest
        simp only [List.length_cons]
        omega
      · simp

theorem charToDigit_10_to_16 (c : Char) (h : (charToDigit 10 c).isSome) :
    (charToDigit 16 c).isSome := by
  by_cases h1 : 48 ≤ c.toNat ∧ c.toNat ≤ 57
  · simp only [charToDigit, if_pos h1] at h ⊢
    have h2 : c.toNat - 48 < 10 := by
      by_contra h3
      rw [if_neg h3] at h
      exact Bool.noConfusion h
    rw [if_pos (by omega : c.toNat - 48 < 16)]
    rfl
  · simp only [charToDigit, if_neg h1] at h
    rw [if_neg (by omega : ¬ (10:Nat) < 10)] at h
    exact absurd h (by simp)

theorem read_separator_cases {α : Type} (f : Bool)
    (inner : List Char → Option (α × List Char)) (l : List Char)
    (v : α) (rest : List Char)
    (h : read_separator f inner l = some (v, rest)) :
    inner l = some (v, rest) ∨ ∃ t, l = ':' :: t ∧ inner t = some (v, rest) := by
  cases f
  · match l with
    | ':' :: t => exact Or.inr ⟨t, rfl, h⟩
    | [] => exact Option.noConfusion h
    | c :: t =>
      by_cases hc : c = ':'
      · subst hc; exact Or.inr ⟨t, rfl, h⟩
      · exfalso
        have : read_separator false inner (c :: t) = none := by
          simp only [read_separator]
          split
          · next heq =>
            rw [List.cons.injEq] at heq
            exact absurd heq.1 hc
          · rfl
        rw [this] at h
        exact Option.noConfusion h
  · exact Or.inl h

/-- Characters that `read_groups` can consume. -/
def ipv6Char (c : Char) : Prop :=
  (charToDigit 16 c).isSome ∨ c = ':' ∨ c = '.'

theorem read_ipv4_consumed_ipv6Char (l : List Char) (a : Ipv4Addr) (r : List Char)
    (h : read_ipv4_addr l = some (a, r)) :
    ∃ cs, l = cs ++ r ∧ ∀ c ∈ cs, ipv6Char c := by
  obtain ⟨cs, hcs, hall⟩ := read_ipv4_consumed l a r h
  exact ⟨cs, hcs, fun c hc => by
    rcases hall c hc with h' | h'
    · exact Or.inl (charToDigit_10_to_16 c h')
    · exact Or.inr (Or.inr h')⟩

theorem read_groups_consumed :
    ∀ (r : Nat) (f : Bool) (l : List Char),
      ∃ cs, l = cs ++ (read_groups r f l).2.2 ∧ ∀ c ∈ cs, ipv6Char c := by
  intro r
  induction r with
  | zero => intro f l; exact ⟨[], by simp [read_groups], by simp⟩
  | succ r ih =>
    intro f l
    simp only [read_groups]
    split
    · next v4 rest heq =>
      have hsep : read_separator f read_ipv4_addr l = some (v4, rest) := by
        by_cases hr : 1 ≤ r
        · rwa [if_pos hr] at heq
        · rw [if_neg hr] at heq; exact Option.noConfusion heq
      rcases read_separator_cases f read_ipv4_addr l v4 rest hsep with h | ⟨t, rfl, h⟩
      · obtain ⟨cs, hcs, hall⟩ := read_ipv4_consumed_ipv6Char l v4 rest h
        exact ⟨cs, by simpa using hcs, hall⟩
      · obtain ⟨cs, hcs, hall⟩ := read_ipv4_consumed_ipv6Char t v4 rest h
        refine ⟨':' :: cs, by simpa using hcs, ?_⟩
        intro c hc
        rcases List.mem_cons.mp hc with rfl | hc
        · exact Or.inr (Or.inl rfl)
        · exact hall c hc
    · split
      · next g rest heq =>
        rcases read_separator_cases f _ l g rest heq with h | ⟨t, rfl, h⟩
        · obtain ⟨cs, hcs, hall⟩ := read_number_rest 16 4 65535 true l g rest h
          obtain ⟨cs2, hcs2, hall2⟩ := ih false rest
          refine ⟨cs ++ cs2, ?_, ?_⟩
          · show l = (cs ++ cs2) ++ (read_groups r false rest).2.2
            rw [List.append_assoc, ← hcs2]
            exact hcs
          · intro c hc
            rcases List.mem_append.mp hc with hc | hc
            · exact Or.inl (hall c hc)
            · exact hall2 c hc
        · obtain ⟨cs, hcs, hall⟩ := read_number_rest 16 4 65535 true t g rest h
          obtain ⟨cs2, hcs2, hall2⟩ := ih false rest
          refine ⟨':' :: (cs ++ cs2), ?_, ?_⟩
          · show ':' :: t = (':' :: (cs ++ cs2)) ++ (read_groups r false rest).2.2
            rw [List.cons_append, List.append_assoc, ← hcs2]
            exact congrArg (List.cons ':') hcs
          · intro c hc
            rcases List.mem_cons.mp hc with rfl | hc
            · exact Or.inr (Or.inl rfl)
            rcases List.mem_append.mp hc with hc | hc
            · exact Or.inl (hall c hc)
            · exact hall2 c hc
      · exact ⟨[], by simp, by simp⟩

theorem read_ipv4_head_not_digit (l : List Char) (h : headNotDigit 10 l = true) :
    read_ipv4_addr l = none := by
  simp [read_ipv4_addr, read_number_not_digit 10 3 255 false l h]

theorem read_groups_colon (r : Nat) (z : List Char) :
    read_groups r true (':' :: z) = ([], false, ':' :: z) := by
  match r with
  | 0 => rfl
  | r + 1 =>
    have h1 : (if 1 ≤ r then read_separator true read_ipv4_addr (':' :: z)
        else none) = none := by
      split
      · show read_ipv4_addr (':' :: z) = none
        exact read_ipv4_head_not_digit _ rfl
      · rfl
    have h2 : read_separator true (read_number 16 4 65535 true) (':' :: z)
        = none := by
      show read_number 16 4 65535 true (':' :: z) = none
      exact read_number_not_digit _ _ _ _ _ rfl
    simp only [read_groups, h1, h2]

theorem Ipv6Addr.ofSegments_segments (a : Ipv6Addr) :
    Ipv6Addr.ofSegments a.segments = some a := rfl

theorem printBase_ffff : printBase 16 65535 = ['f', 'f', 'f', 'f'] := rfl

theorem read_groups_succ (r : Nat) (isFirst : Bool) (l : List Char) :
    read_groups (r + 1) isFirst l =
      match (if 1 ≤ r then read_separator isFirst read_ipv4_addr l else none) with
      | some (v4, rest) => ([v4GroupHi v4, v4GroupLo v4], true, rest)
      | none =>
        match read_separator isFirst (read_number 16 4 65535 true) l with
        | some (g, rest) =>
          let t := read_groups r false rest
          (g :: t.1, t.2.1, t.2.2)
        | none => ([], false, l) := rfl

theorem read_groups_mapped_tail (v4 : Ipv4Addr) :
    read_groups 7 true
      ('f' :: 'f' :: 'f' :: 'f' :: ':' :: printIpv4 v4)
      = ([⟨65535, by omega⟩, v4GroupHi v4, v4GroupLo v4], true, []) := by
  have hv4print : read_ipv4_addr (printIpv4 v4) = some (v4, []) := by
    have := read_ipv4_printed v4 [] rfl
    rwa [List.append_nil] at this
  have hstep2 : read_groups 6 false (':' :: printIpv4 v4)
      = ([v4GroupHi v4, v4GroupLo v4], true, []) := by
    show read_groups (5 + 1) false (':' :: printIpv4 v4) = _
    rw [read_groups_succ, if_pos (by omega : (1:Nat) ≤ 5)]
    have hsep : read_separator false read_ipv4_addr (':' :: printIpv4 v4)
        = some (v4, []) := hv4print
    rw [hsep]
  have hffff : read_number 16 4 65535 true
      ('f' :: 'f' :: 'f' :: 'f' :: ':' :: printIpv4 v4)
      = some (⟨65535, by omega⟩, ':' :: printIpv4 v4) := by
    have := read_number_printed 16 4 65535 true (by omega) (by omega) 65535
      (by omega) (by decide)
      (':' :: printIpv4 v4) rfl
    rw [printBase_ffff] at this
    simpa using this
  have hv4fail : read_separator true read_ipv4_addr
      ('f' :: 'f' :: 'f' :: 'f' :: ':' :: printIpv4 v4) = none := by
    show read_ipv4_addr ('f' :: 'f' :: 'f' :: 'f' :: ':' :: printIpv4 v4) = none
    exact read_ipv4_head_not_digit _ rfl
  show read_groups (6 + 1) true _ = _
  rw [read_groups_succ, if_pos (by omega : (1:Nat) ≤ 6), hv4fail]
  have hhex : read_separator true (read_number 16 4 65535 true)
      ('f' :: 'f' :: 'f' :: 'f' :: ':' :: printIpv4 v4)
      = some (⟨65535, by omega⟩, ':' :: printIpv4 v4) := hffff
  rw [hhex]
  simp only [hstep2]

theorem lzrAux_spec (L : List (Fin 65536)) :
    ∀ (xs : List (Fin 65536)) (i : Nat) (long cur : Nat × Nat),
      L.drop i = xs → i ≤ L.length →
      (long.1 + long.2 ≤ i ∧ ∀ j < long.2, L[long.1 + j]? = some 0) →
      (cur.2 = 0 ∨ (cur.1 + cur.2 = i ∧ ∀ j < cur.2, L[cur.1 + j]? = some 0)) →
      (lzrAux xs i long cur).1 + (lzrAux xs i long cur).2 ≤ L.length ∧
        ∀ j < (lzrAux xs i long cur).2,
          L[(lzrAux xs i long cur).1 + j]? = some 0 := by
  intro xs
  induction xs with
  | nil =>
    intro i long cur hdrop hi hlong hcur
    simp only [lzrAux]
    exact ⟨by omega, hlong.2⟩
  | cons x xs ih =>
    intro i long cur hdrop hi hlong hcur
    have hget : L[i]? = some x := by
      have h0 : (L.drop i)[0]? = some x := by rw [hdrop, List.getElem?_cons_zero]
      rwa [List.getElem?_drop, Nat.add_zero] at h0
    have hilt : i < L.length := by
      by_contra hc
      have : L.drop i = [] := List.drop_eq_nil_of_le (by omega)
      rw [this] at hdrop
      exact List.noConfusion hdrop
    have hdrop2 : L.drop (i + 1) = xs := by
      rw [← List.tail_drop, hdrop]
      rfl
    simp only [lzrAux]
    by_cases hx : x = 0
    · rw [if_pos hx]
      have hcurOk : (if cur.2 = 0 then i else cur.1) + (cur.2 + 1) = i + 1 ∧
          ∀ j < cur.2 + 1,
            L[(if cur.2 = 0 then i else cur.1) + j]? = some 0 := by
        by_cases hc0 : cur.2 = 0
        · rw [if_pos hc0, hc0]
          refine ⟨rfl, ?_⟩
          intro j hj
          have hj0 : j = 0 := by omega
          subst hj0
          rw [Nat.add_zero, hget, hx]
        · rw [if_neg hc0]
          rcases hcur with hcur | ⟨hsum, hzs⟩
          · exact absurd hcur hc0
          refine ⟨by omega, ?_⟩
          intro j hj
          by_cases hjc : j < cur.2
          · exact hzs j hjc
          · have hje : j = cur.2 := by omega
            subst hje
            rw [hsum, hget, hx]
      refine ih (i + 1) _ _ hdrop2 (by omega) ?_ (Or.inr hcurOk)
      by_cases hgt : cur.2 + 1 > long.2
      · rw [if_pos hgt]
        exact ⟨by omega, hcurOk.2⟩
      · rw [if_neg hgt]
        exact ⟨by omega, hlong.2⟩
    · rw [if_neg hx]
      refine ih (i + 1) long (0, 0) hdrop2 (by omega) ⟨by omega, hlong.2⟩
        (Or.inl rfl)

theorem longestZeroRun_spec (L : List (Fin 65536)) :
    (longestZeroRun L).1 + (longestZeroRun L).2 ≤ L.length ∧
      ∀ j < (longestZeroRun L).2, L[(longestZeroRun L).1 + j]? = some 0 :=
  lzrAux_spec L L 0 (0, 0) (0, 0) rfl (by omega)
    ⟨by omega, by intro j hj; omega⟩ (Or.inl rfl)

theorem zero_run_decomp :
    ∀ (L : List (Fin 65536)) (s ln : Nat),
      s + ln ≤ L.length → (∀ j < ln, L[s + j]? = some 0) →
      L = L.take s ++ (List.replicate ln (0 : Fin 65536) ++ L.drop (s + ln)) := by
  intro L
  induction L with
  | nil =>
    intro s ln hlen hz
    simp only [List.length_nil] at hlen
    have hs : s = 0 := by omega
    have hl : ln = 0 := by omega
    subst hs hl
    rfl
  | cons x t ih =>
    intro s ln hlen hz
    match s with
    | 0 =>
      match ln with
      | 0 => simp
      | k + 1 =>
        have hx : x = 0 := by
          have := hz 0 (by omega)
          rw [Nat.add_zero, List.getElem?_cons_zero] at this
          exact Option.some_inj.mp this
        subst hx
        have hz2 : ∀ j < k, t[j]? = some 0 := by
          intro j hj
          have := hz (j + 1) (by omega)
          rwa [Nat.zero_add, List.getElem?_cons_succ] at this
        have ih2 := ih 0 k (by simp at hlen ⊢; omega) (by simpa using hz2)
        simp only [List.take_zero, List.nil_append, Nat.zero_add] at ih2
        simp only [List.take_zero, List.nil_append, List.replicate_succ,
          List.cons_append, Nat.zero_add, List.drop_succ_cons]
        exact congrArg (List.cons 0) ih2
    | σ + 1 =>
      have hz2 : ∀ j < ln, t[σ + j]? = some 0 := by
        intro j hj
        have := hz j hj
        rwa [show σ + 1 + j = (σ + j) + 1 by omega, List.getElem?_cons_succ] at this
      have ih2 := ih σ ln (by simp at hlen ⊢; omega) hz2
      simp only [List.take_succ_cons, List.cons_append,
        show σ + 1 + ln = (σ + ln) + 1 by omega, List.drop_succ_cons]
      exact congrArg (List.cons x) ih2

theorem read_ipv6_printed_mapped (a : Ipv6Addr) (hm : isV4Mapped a = true) :
    read_ipv6_addr (printIpv6 a) = some (a, []) := by
  have hm' := hm
  simp only [isV4Mapped, Bool.and_eq_true, beq_iff_eq] at hm'
  obtain ⟨⟨⟨⟨⟨h0, h1⟩, h2⟩, h3⟩, h4⟩, h5⟩ := hm'
  have hs6 : v4GroupHi (mappedV4 a) = a.s6 := by
    apply Fin.ext
    show a.s6.val / 256 * 256 + a.s6.val % 256 = a.s6.val
    omega
  have hs7 : v4GroupLo (mappedV4 a) = a.s7 := by
    apply Fin.ext
    show a.s7.val / 256 * 256 + a.s7.val % 256 = a.s7.val
    omega
  rw [printIpv6, if_pos hm]
  simp only [read_ipv6_addr, read_groups_colon, List.length_nil]
  rw [if_neg (by omega : ¬ (0 = 8))]
  simp only [Bool.false_eq_true, if_false]
  norm_num
  rw [read_groups_mapped_tail (mappedV4 a), hs6, hs7]
  simp only [List.nil_append, List.length_cons, List.length_nil]
  norm_num
  simp only [List.replicate, List.cons_append, List.nil_append]
  simp only [Ipv6Addr.ofSegments]
  obtain ⟨s0, s1, s2, s3, s4, s5, s6, s7⟩ := a
  simp only at h0 h1 h2 h3 h4 h5
  subst h0 h1 h2 h3 h4 h5
  simp only []
  congr 1

theorem printedFrom_true (gs : List (Fin 65536)) :
    printedFrom true gs = printHexGroups gs := rfl

theorem read_ipv6_printed_general (a : Ipv6Addr) (hm : isV4Mapped a = false) :
    read_ipv6_addr (printIpv6 a) = some (a, []) := by
  have hspec := longestZeroRun_spec a.segments
  have hlen8 : a.segments.length = 8 := rfl
  simp only [printIpv6, hm, Bool.false_eq_true, if_false]
  by_cases hcomp : (longestZeroRun a.segments).2 > 1
  · rw [if_pos hcomp]
    have hsl : (longestZeroRun a.segments).1 + (longestZeroRun a.segments).2 ≤ 8 :=
      hlen8 ▸ hspec.1
    have hzeros := hspec.2
    have hpre_len : (a.segments.take (longestZeroRun a.segments).1).length
        = (longestZeroRun a.segments).1 := by
      rw [List.length_take, hlen8]
      omega
    have hpost_len : (a.segments.drop
        ((longestZeroRun a.segments).1 + (longestZeroRun a.segments).2)).length
        = 8 - ((longestZeroRun a.segments).1 + (longestZeroRun a.segments).2) := by
      rw [List.length_drop, hlen8]
    have hhead : read_groups 8 true
        (printHexGroups (a.segments.take (longestZeroRun a.segments).1) ++
          ':' :: ':' :: printHexGroups (a.segments.drop
            ((longestZeroRun a.segments).1 + (longestZeroRun a.segments).2)))
        = (a.segments.take (longestZeroRun a.segments).1, false,
            ':' :: ':' :: printHexGroups (a.segments.drop
              ((longestZeroRun a.segments).1 + (longestZeroRun a.segments).2))) := by
      rw [← printedFrom_true]
      apply read_groups_printed
      · rw [hpre_len]; omega
      · intro hd
        rcases List.mem_cons.mp hd with h | hd
                      <;> first
        | exact absurd h (by decide)
        | skip
        rcases List.mem_cons.mp hd with h | hd
        · exact absurd h (by decide)
        · exact dot_not_mem_printHexGroups _ hd
      · rfl
      · right
        right
        exact ⟨_, rfl, rfl⟩
    simp only [read_ipv6_addr, hhead]
    rw [if_neg (by rw [hpre_len]; omega)]
    simp only [Bool.false_eq_true, if_false]
    have htail : read_groups
        (8 - ((a.segments.take (longestZeroRun a.segments).1).length + 1)) true
        (printHexGroups (a.segments.drop
          ((longestZeroRun a.segments).1 + (longestZeroRun a.segments).2)))
        = (a.segments.drop
            ((longestZeroRun a.segments).1 + (longestZeroRun a.segments).2),
           false, []) := by
      rw [← printedFrom_true, ← List.append_nil (printedFrom true _)]
      apply read_groups_printed
      · rw [hpost_len, hpre_len]; omega
      · simp
      · rfl
      · right
        left
        rfl
    rw [htail]
    have hmid : 8 - (a.segments.take (longestZeroRun a.segments).1).length -
        (a.segments.drop
          ((longestZeroRun a.segments).1 + (longestZeroRun a.segments).2)).length
        = (longestZeroRun a.segments).2 := by
      rw [hpre_len, hpost_len]
      omega
    rw [hmid]
    have hdecomp := zero_run_decomp a.segments (longestZeroRun a.segments).1
      (longestZeroRun a.segments).2 (hlen8 ▸ hspec.1) hzeros
    show (Ipv6Addr.ofSegments
        (List.take (longestZeroRun a.segments).1 a.segments ++
          List.replicate (longestZeroRun a.segments).2 0 ++
          List.drop ((longestZeroRun a.segments).1 + (longestZeroRun a.segments).2)
            a.segments)).map (fun x => (x, ([] : List Char))) = some (a, [])
    have hdecomp2 : List.take (longestZeroRun a.segments).1 a.segments ++
        List.replicate (longestZeroRun a.segments).2 0 ++
        List.drop ((longestZeroRun a.segments).1 + (longestZeroRun a.segments).2)
          a.segments = a.segments := by
      rw [List.append_assoc]
      exact hdecomp.symm
    rw [hdecomp2, Ipv6Addr.ofSegments_segments]
    rfl
  · rw [if_neg hcomp]
    have hhead : read_groups 8 true (printHexGroups a.segments)
        = (a.segments, false, []) := by
      rw [← printedFrom_true, ← List.append_nil (printedFrom true _)]
      apply read_groups_printed
      · rw [hlen8]
      · simp
      · rfl
      · left
        exact hlen8
    simp only [read_ipv6_addr, hhead]
    rw [if_pos hlen8, Ipv6Addr.ofSegments_segments]
    rfl

theorem read_ipv6_printed (a : Ipv6Addr) :
    read_ipv6_addr (printIpv6 a) = some (a, []) := by
  by_cases hm : isV4Mapped a = true
  · exact read_ipv6_printed_mapped a hm
  · exact read_ipv6_printed_general a (by simpa using hm)

theorem parseIpv6Addr_printed (a : Ipv6Addr) :
    parseIpv6Addr (printIpv6 a) = some a := by
  simp [parseIpv6Addr, read_ipv6_printed a]

/-- `ipnetwork::Ipv4Network`: address plus prefix length, `new` rejects
prefixes above 32 (field named `prefix` in the crate). -/
structure Ipv4Network where
  addr : Ipv4Addr
  prefixLen : Fin 33
deriving DecidableEq

/-- `ipnetwork::Ipv6Network`. -/
structure Ipv6Network where
  addr : Ipv6Addr
  prefixLen : Fin 129
deriving DecidableEq

/-- `ipnetwork::IpNetwork`. -/
inductive IpNetwork where
  | V4 (n : Ipv4Network)
  | V6 (n : Ipv6Network)
deriving DecidableEq

/-- `ipnetwork::common::cidr_parts`: split at the first `/`; a second
`/` is an error; no `/` leaves the prefix part absent. -/
def cidr_parts (l : List Char) : Option (List Char × Option (List Char)) :=
  if '/' ∈ l then
    let ip := l.takeWhile (fun c => c ≠ '/')
    let rest := (l.dropWhile (fun c => c ≠ '/')).tail
    if '/' ∈ rest then none else some (ip, some rest)
  else some (l, none)

/-- Digit loop of `u8::from_str` (via `from_str_radix`): every character
must be a decimal digit, at least one digit, checked arithmetic rejects
values above 255. -/
def parseU8core (l : List Char) : Option Nat :=
  let p := takeDigits 10 l
  if p.2 ≠ [] then none
  else if p.1 = [] then none
  else if digitsVal 10 p.1 > 255 then none
  else some (digitsVal 10 p.1)

/-- `u8::from_str`: an optional leading `+` (a bare sign is an error),
then the digit loop; `-` is not accepted for an unsigned type. -/
def parseU8 : List Char → Option Nat
  | [] => none
  | c :: rest =>
    if c = '+' then
      if rest = [] then none else parseU8core rest
    else parseU8core (c :: rest)

/-- `ipnetwork::common::parse_prefix`: `u8` parse then range check
against the family's bit width. -/
def parsePrefixLen (l : List Char) (max : Nat) : Option (Fin (max + 1)) :=
  match parseU8 l with
  | some m => if h : m > max then none else some ⟨m, by omega⟩
  | none => none

/-- `Ipv4Network::from_str`: `cidr_parts`, address parse, prefix parse
defaulting to 32 when absent (`Ipv4Network::new` re-checks the bound,
which the `Fin` carries). -/
def ipv4NetworkFromStr (l : List Char) : Option Ipv4Network :=
  match cidr_parts l with
  | none => none
  | some (addrStr, pfx) =>
    match parseIpv4Addr addrStr with
    | none => none
    | some addr =>
      match pfx with
      | some p =>
        match parsePrefixLen p 32 with
        | some m => some ⟨addr, m⟩
        | none => none
      | none => some ⟨addr, ⟨32, by omega⟩⟩

/-- `Ipv6Network::from_str` (prefix defaults to 128). -/
def ipv6NetworkFromStr (l : List Char) : Option Ipv6Network :=
  match cidr_parts l with
  | none => none
  | some (addrStr, pfx) =>
    match parseIpv6Addr addrStr with
    | none => none
    | some addr =>
      match pfx with
      | some p =>
        match parsePrefixLen p 128 with
        | some m => some ⟨addr, m⟩
        | none => none
      | none => some ⟨addr, ⟨128, by omega⟩⟩

/-- `IpNetwork::from_str`: IPv4 first, then IPv6. -/
def parseIpNetwork (l : List Char) : Option IpNetwork :=
  match ipv4NetworkFromStr l with
  | some n => some (.V4 n)
  | none =>
    match ipv6NetworkFromStr l with
    | some n => some (.V6 n)
    | none => none

/-- `Display for Ipv4Network`: `"{}/{}"`. -/
def displayIpv4Network (n : Ipv4Network) : List Char :=
  printIpv4 n.addr ++ '/' :: printBase 10 n.prefixLen.val

/-- `Display for Ipv6Network`: `"{}/{}"`. -/
def displayIpv6Network (n : Ipv6Network) : List Char :=
  printIpv6 n.addr ++ '/' :: printBase 10 n.prefixLen.val

/-- `Display for IpNetwork` (delegates to the variant). -/
def displayIpNetwork : IpNetwork → List Char
  | .V4 n => displayIpv4Network n
  | .V6 n => displayIpv6Network n

theorem takeWhile_append_stop {α : Type} (p : α → Bool) :
    ∀ (xs : List α) (y : α) (rest : List α), (∀ x ∈ xs, p x = true) →
      p y = false → (xs ++ y :: rest).takeWhile p = xs := by
  intro xs
  induction xs with
  | nil =>
    intro y rest _ hy
    simp [List.takeWhile, hy]
  | cons x xs ih =>
    intro y rest hall hy
    have hx : p x = true := hall x (by simp)
    simp only [List.cons_append, List.takeWhile, hx, List.append_eq]
    rw [ih y rest (fun z hz => hall z (by simp [hz])) hy]

theorem dropWhile_append_stop {α : Type} (p : α → Bool) :
    ∀ (xs : List α) (y : α) (rest : List α), (∀ x ∈ xs, p x = true) →
      p y = false → (xs ++ y :: rest).dropWhile p = y :: rest := by
  intro xs
  induction xs with
  | nil =>
    intro y rest _ hy
    simp [List.dropWhile, hy]
  | cons x xs ih =>
    intro y rest hall hy
    have hx : p x = true := hall x (by simp)
    simp only [List.cons_append, List.dropWhile, hx]
    exact ih y rest (fun z hz => hall z (by simp [hz])) hy

theorem cidr_parts_no_slash (l : List Char) (h : '/' ∉ l) :
    cidr_parts l = some (l, none) := by
  simp [cidr_parts, h]

theorem cidr_parts_split (A B : List Char) (hA : '/' ∉ A) (hB : '/' ∉ B) :
    cidr_parts (A ++ '/' :: B) = some (A, some B) := by
  have hmem : '/' ∈ A ++ '/' :: B := List.mem_append_right A (by simp)
  have htake : (A ++ '/' :: B).takeWhile (fun c => c ≠ '/') = A := by
    apply takeWhile_append_stop
    · intro x hx
      simp only [ne_eq, decide_eq_true_eq]
      intro he
      exact hA (he ▸ hx)
    · simp
  have hdrop : (A ++ '/' :: B).dropWhile (fun c => c ≠ '/') = '/' :: B := by
    apply dropWhile_append_stop
    · intro x hx
      simp only [ne_eq, decide_eq_true_eq]
      intro he
      exact hA (he ▸ hx)
    · simp
  simp only [cidr_parts, if_pos hmem, htake, hdrop, List.tail_cons]
  rw [if_neg hB]

theorem digitChar_ne_plus : ∀ d < 10, digitChar d ≠ '+' := by decide

theorem parseU8_printed (n : Nat) (hn : n ≤ 255) :
    parseU8 (printBase 10 n) = some n := by
  have hne : natDigits 10 n ≠ [] := natDigits_ne_nil 10 (by omega) n
  have hlt : ∀ d ∈ natDigits 10 n, d < 10 := natDigits_lt 10 (by omega) n
  have hval : digitsVal 10 (natDigits 10 n) = n := digitsVal_natDigits 10 (by omega) n
  have ht : takeDigits 10 (printBase 10 n) = (natDigits 10 n, []) := by
    have := takeDigits_map_digitChar 10 (by omega) (natDigits 10 n) hlt [] rfl
    simpa [printBase] using this
  cases hpb : printBase 10 n with
  | nil =>
    exfalso
    apply hne
    simpa [printBase] using hpb
  | cons c cs =>
    have hcmem : c ∈ printBase 10 n := by rw [hpb]; simp
    have hcd : c ≠ '+' := by
      simp only [printBase, List.mem_map] at hcmem
      obtain ⟨d, hd, rfl⟩ := hcmem
      exact digitChar_ne_plus d (hlt d hd)
    simp only [parseU8, if_neg hcd]
    rw [← hpb]
    simp only [parseU8core, ht]
    rw [if_neg (by simp), if_neg (by simpa using hne),
      if_neg (by rw [hval]; omega), hval]

theorem parsePrefixLen_printed (max : Nat) (hmax : max ≤ 255) (m : Nat)
    (hm : m ≤ max) : parsePrefixLen (printBase 10 m) max = some ⟨m, by omega⟩ := by
  simp only [parsePrefixLen, parseU8_printed m (by omega)]
  rw [dif_neg (by omega)]

theorem slash_not_mem_printIpv4 (a : Ipv4Addr) : '/' ∉ printIpv4 a := by
  intro h
  rcases mem_printIpv4 a '/' h with h' | h'
  · exact absurd h' (by decide)
  · exact absurd h' (by decide)

theorem colon_not_mem_printIpv4 (a : Ipv4Addr) : ':' ∉ printIpv4 a := by
  intro h
  rcases mem_printIpv4 a ':' h with h' | h'
  · exact absurd h' (by decide)
  · exact absurd h' (by decide)

theorem slash_not_mem_printGroupsTail (gs : List (Fin 65536)) :
    '/' ∉ printGroupsTail gs := by
  intro h
  simp only [printGroupsTail, List.mem_flatMap, List.mem_cons] at h
  obtain ⟨g, -, h⟩ := h
  rcases h with h | h
  · exact absurd h (by decide)
  · exact slash_not_mem_printBase 16 (by omega) (by omega) g.val h

theorem slash_not_mem_printHexGroups (gs : List (Fin 65536)) :
    '/' ∉ printHexGroups gs := by
  intro h
  match gs with
  | [] => exact absurd h (by simp [printHexGroups])
  | g :: gs =>
    simp only [printHexGroups, List.mem_append] at h
    rcases h with h | h
    · exact slash_not_mem_printBase 16 (by omega) (by omega) g.val h
    · exact slash_not_mem_printGroupsTail gs h

theorem slash_not_mem_printIpv6 (a : Ipv6Addr) : '/' ∉ printIpv6 a := by
  intro h
  by_cases hm : isV4Mapped a = true
  · rw [printIpv6, if_pos hm] at h
    simp only [List.mem_cons] at h
    rcases h with h | h | h | h | h | h | h | h
    all_goals first
    | exact absurd h (by decide)
    | exact slash_not_mem_printIpv4 (mappedV4 a) h
  · rw [printIpv6, if_neg hm] at h
    by_cases hcomp : (longestZeroRun a.segments).2 > 1
    · rw [if_pos hcomp] at h
      simp only [List.mem_append, List.mem_cons] at h
      rcases h with h | h | h | h
      · exact slash_not_mem_printHexGroups _ h
      · exact absurd h (by decide)
      · exact absurd h (by decide)
      · exact slash_not_mem_printHexGroups _ h
    · rw [if_neg hcomp] at h
      exact slash_not_mem_printHexGroups _ h

theorem colon_mem_printIpv6 (a : Ipv6Addr) : ':' ∈ printIpv6 a := by
  by_cases hm : isV4Mapped a = true
  · rw [printIpv6, if_pos hm]
    simp
  · rw [printIpv6, if_neg hm]
    by_cases hcomp : (longestZeroRun a.segments).2 > 1
    · rw [if_pos hcomp]
      simp
    · rw [if_neg hcomp]
      show ':' ∈ printHexGroups a.segments
      have : a.segments = a.s0 :: [a.s1, a.s2, a.s3, a.s4, a.s5, a.s6, a.s7] := rfl
      rw [this]
      simp only [printHexGroups, List.mem_append]
      right
      simp only [printGroupsTail, List.mem_flatMap]
      exact ⟨a.s1, by simp, by simp⟩

theorem parseIpv4Addr_colon (l : List Char) (h : ':' ∈ l) :
    parseIpv4Addr l = none := by
  cases hr : read_ipv4_addr l with
  | none => simp [parseIpv4Addr, hr]
  | some p =>
    obtain ⟨a, r⟩ := p
    match hrr : r with
    | [] =>
      exfalso
      obtain ⟨cs, hcs, hall⟩ := read_ipv4_consumed l a [] hr
      rw [List.append_nil] at hcs
      subst hcs
      rcases hall ':' h with h' | h'
      · exact absurd h' (by decide)
      · exact absurd h' (by decide)
    | c :: t => simp [parseIpv4Addr, hr]

theorem parse_display_v4 (n : Ipv4Network) :
    parseIpNetwork (displayIpNetwork (.V4 n)) = some (.V4 n) := by
  obtain ⟨addr, pfx⟩ := n
  have hsplit := cidr_parts_split (printIpv4 addr) (printBase 10 pfx.val)
    (slash_not_mem_printIpv4 addr)
    (slash_not_mem_printBase 10 (by omega) (by omega) pfx.val)
  have hpfx := parsePrefixLen_printed 32 (by omega) pfx.val
    (by have := pfx.isLt; omega)
  simp only [displayIpNetwork, displayIpv4Network]
  simp only [parseIpNetwork, ipv4NetworkFromStr, hsplit,
    parseIpv4Addr_printed addr, hpfx]

theorem parse_display_v6 (n : Ipv6Network) :
    parseIpNetwork (displayIpNetwork (.V6 n)) = some (.V6 n) := by
  obtain ⟨addr, pfx⟩ := n
  have hsplit := cidr_parts_split (printIpv6 addr) (printBase 10 pfx.val)
    (slash_not_mem_printIpv6 addr)
    (slash_not_mem_printBase 10 (by omega) (by omega) pfx.val)
  have hpfx := parsePrefixLen_printed 128 (by omega) pfx.val
    (by have := pfx.isLt; omega)
  have hv4addr : parseIpv4Addr (printIpv6 addr) = none :=
    parseIpv4Addr_colon _ (colon_mem_printIpv6 addr)
  simp only [displayIpNetwork, displayIpv6Network]
  simp only [parseIpNetwork, ipv4NetworkFromStr, ipv6NetworkFromStr, hsplit,
    hv4addr, parseIpv6Addr_printed addr, hpfx]

theorem parse_display_roundtrip (n : IpNetwork) :
    parseIpNetwork (displayIpNetwork n) = some n := by
  cases n with
  | V4 m => exact parse_display_v4 m
  | V6 m => exact parse_display_v6 m

theorem parseIpv4Addr_inv (l : List Char) (a : Ipv4Addr)
    (h : parseIpv4Addr l = some a) : read_ipv4_addr l = some (a, []) := by
  unfold parseIpv4Addr at h
  split at h
  · next a' heq =>
    rw [Option.some_inj] at h
    rw [h] at heq
    exact heq
  · exact Option.noConfusion h

theorem parseIpv6Addr_inv (l : List Char) (a : Ipv6Addr)
    (h : parseIpv6Addr l = some a) : read_ipv6_addr l = some (a, []) := by
  unfold parseIpv6Addr at h
  split at h
  · next a' heq =>
    rw [Option.some_inj] at h
    rw [h] at heq
    exact heq
  · exact Option.noConfusion h

theorem read_ipv6_consumed (l : List Char) (a : Ipv6Addr) (r : List Char)
    (h : read_ipv6_addr l = some (a, r)) :
    ∃ cs, l = cs ++ r ∧ ∀ c ∈ cs, ipv6Char c := by
  obtain ⟨cs1, hcs1, hall1⟩ := read_groups_consumed 8 true l
  simp only [read_ipv6_addr] at h
  split at h
  · rcases Option.map_eq_some'.mp h with ⟨x, -, hxr⟩
    have hr : r = (read_groups 8 true l).2.2 := (congrArg Prod.snd hxr).symm
    subst hr
    exact ⟨cs1, hcs1, hall1⟩
  · split at h
    · exact Option.noConfusion h
    · split at h
      · next r2 heq =>
        obtain ⟨cs2, hcs2, hall2⟩ :=
          read_groups_consumed (8 - ((read_groups 8 true l).1.length + 1)) true r2
        rcases Option.map_eq_some'.mp h with ⟨x, -, hxr⟩
        have hr : r = (read_groups
            (8 - ((read_groups 8 true l).1.length + 1)) true r2).2.2 :=
          (congrArg Prod.snd hxr).symm
        subst hr
        refine ⟨cs1 ++ ':' :: ':' :: cs2, ?_, ?_⟩
        · calc l = cs1 ++ (read_groups 8 true l).2.2 := hcs1
            _ = cs1 ++ (':' :: ':' :: r2) := by rw [heq]
            _ = cs1 ++ (':' :: ':' :: (cs2 ++ (read_groups
                (8 - ((read_groups 8 true l).1.length + 1)) true r2).2.2)) :=
              congrArg (fun z => cs1 ++ (':' :: ':' :: z)) hcs2
            _ = (cs1 ++ ':' :: ':' :: cs2) ++ (read_groups
                (8 - ((read_groups 8 true l).1.length + 1)) true r2).2.2 := by
              simp [List.append_assoc]
        · intro c hc
          simp only [List.mem_append, List.mem_cons] at hc
          rcases hc with hc | rfl | rfl | hc
          · exact hall1 c hc
          · exact Or.inr (Or.inl rfl)
          · exact Or.inr (Or.inl rfl)
          · exact hall2 c hc
      · exact Option.noConfusion h

theorem ipv4_full_excludes_ipv6 (l : List Char) (b : Ipv4Addr)
    (h : read_ipv4_addr l = some (b, [])) : read_ipv6_addr l = none := by
  have hhead : read_groups 8 true l = ([v4GroupHi b, v4GroupLo b], true, []) := by
    show read_groups (7 + 1) true l = _
    rw [read_groups_succ, if_pos (by omega : (1:Nat) ≤ 7)]
    have hsep : read_separator true read_ipv4_addr l = some (b, []) := h
    rw [hsep]
  simp only [read_ipv6_addr, hhead]
  rw [if_neg (by simp)]
  rfl

theorem parse_bare_v4 (l : List Char) (a : Ipv4Addr)
    (h : parseIpv4Addr l = some a) :
    parseIpNetwork l = some (.V4 ⟨a, ⟨32, by omega⟩⟩) := by
  have hr := parseIpv4Addr_inv l a h
  have hslash : '/' ∉ l := by
    obtain ⟨cs, hcs, hall⟩ := read_ipv4_consumed l a [] hr
    rw [List.append_nil] at hcs
    subst hcs
    intro hmem
    rcases hall '/' hmem with h' | h'
    · exact absurd h' (by decide)
    · exact absurd h' (by decide)
  simp only [parseIpNetwork, ipv4NetworkFromStr, cidr_parts_no_slash l hslash, h]

theorem parse_bare_v6 (l : List Char) (a : Ipv6Addr)
    (h : parseIpv6Addr l = some a) :
    parseIpNetwork l = some (.V6 ⟨a, ⟨128, by omega⟩⟩) := by
  have hr := parseIpv6Addr_inv l a h
  have hslash : '/' ∉ l := by
    obtain ⟨cs, hcs, hall⟩ := read_ipv6_consumed l a [] hr
    rw [List.append_nil] at hcs
    subst hcs
    intro hmem
    rcases hall '/' hmem with h' | h' | h'
    · exact absurd h' (by decide)
    · exact absurd h' (by decide)
    · exact absurd h' (by decide)
  have hv4 : parseIpv4Addr l = none := by
    cases hv : parseIpv4Addr l with
    | none => rfl
    | some b =>
      exfalso
      have hb := parseIpv4Addr_inv l b hv
      have := ipv4_full_excludes_ipv6 l b hb
      rw [this] at hr
      exact Option.noConfusion hr
  simp only [parseIpNetwork, ipv4NetworkFromStr, ipv6NetworkFromStr,
    cidr_parts_no_slash l hslash, hv4, h]

/-- Rust `char::is_whitespace` (the Unicode White_Space set). -/
def isRustWhitespace (c : Char) : Bool :=
  let n := c.toNat
  (n == 0x20) || (0x9 ≤ n && n ≤ 0xd) || n == 0x85 || n == 0xa0 ||
    n == 0x1680 || (0x2000 ≤ n && n ≤ 0x200a) || n == 0x2028 || n == 0x2029 ||
    n == 0x202f || n == 0x205f || n == 0x3000

/-- Rust `str::trim`. -/
def rustTrim (l : List Char) : List Char :=
  ((l.dropWhile isRustWhitespace).reverse.dropWhile isRustWhitespace).reverse

def splitOnNl : List Char → List (List Char)
  | [] => [[]]
  | c :: rest =>
    if c = '\n' then [] :: splitOnNl rest
    else
      match splitOnNl rest with
      | l :: ls => (c :: l) :: ls
      | [] => [[c]]

def stripCr (l : List Char) : List Char :=
  if l.getLast? = some '\r' then l.dropLast else l

/-- Rust `str::lines`: split on `'\n'` dropping a final empty piece,
stripping one trailing `'\r'` per line. -/
def rustLines (l : List Char) : List (List Char) :=
  let ps := splitOnNl l
  (if ps.getLast? = some [] then ps.dropLast else ps).map stripCr

/-- The line loop of `fetch_cidrs`: trim, skip empty, push successfully
parsed `IpNetwork`s, silently drop the rest. -/
def collectNets : List (List Char) → List IpNetwork
  | [] => []
  | line :: rest =>
    let token := rustTrim line
    if token = [] then collectNets rest
    else
      match parseIpNetwork token with
      | some net => net :: collectNets rest
      | none => collectNets rest

/-- `CountryNets` from src/main.rs (the `SerIpNet` wrapper only changes
serialization, so entries are plain networks here). -/
structure CountryNets where
  ipv4 : List IpNetwork
  ipv6 : List IpNetwork
deriving DecidableEq

/-- Outcome of `reqwest::get(url)` followed by `.text()`. -/
inductive RawFetchResult where
  | transportError
  | bodyError
  | ok (body : List Char)

/-- An `anyhow` error annotated by `.with_context(...)` in
`fetch_cidrs`. -/
structure FetchError where
  context : List Char
deriving DecidableEq

def IPV4_BASE : List Char :=
  "https://www.ipdeny.com/ipblocks/data/aggregated".toList

def IPV6_BASE : List Char :=
  "https://www.ipdeny.com/ipv6/ipaddresses/aggregated".toList

/-- `format!("{}/{}-aggregated.zone", IPV4_BASE, cc)`. -/
def ipv4Url (cc : List Char) : List Char :=
  IPV4_BASE ++ '/' :: (cc ++ "-aggregated.zone".toList)

/-- `format!("{}/{}-aggregated.zone", IPV6_BASE, cc)`. -/
def ipv6Url (cc : List Char) : List Char :=
  IPV6_BASE ++ '/' :: (cc ++ "-aggregated.zone".toList)

/-- `fetch_cidrs` over a pure fetch oracle: transport and body-decoding
failures become a `FetchError` carrying `"GET {url}"` resp.
`"read response body {url}"`; a body is parsed line by line. -/
def fetch_cidrs (f : List Char → RawFetchResult) (url : List Char) :
    Except FetchError (List IpNetwork) :=
  match f url with
  | .transportError => .error ⟨"GET ".toList ++ url⟩
  | .bodyError => .error ⟨"read response body ".toList ++ url⟩
  | .ok body => .ok (collectNets (rustLines body))

/-- The country loop of `main`: fetch IPv4 then IPv6 per country (the
`?` operator aborts on the first failure), accumulating the directory in
input order (`HashMap` insertion; all codes of a run are distinct). -/
def runPipeline (f : List Char → RawFetchResult) :
    List (List Char × List Char) →
      Except FetchError (List (List Char × CountryNets))
  | [] => .ok []
  | (cc, _name) :: rest =>
    match fetch_cidrs f (ipv4Url cc) with
    | .error e => .error e
    | .ok v4 =>
      match fetch_cidrs f (ipv6Url cc) with
      | .error e => .error e
      | .ok v6 =>
        match runPipeline f rest with
        | .error e => .error e
        | .ok tail => .ok ((cc, ⟨v4, v6⟩) :: tail)

/-- The string content `SerIpNet::serialize` emits for one prefix
(`serializer.serialize_str(&self.0.to_string())`). -/
def serIpNetStr (n : IpNetwork) : List Char := displayIpNetwork n

/-- Shape of the JSON data file: country code mapped to the serialized
`ipv4` and `ipv6` CIDR-string sequences (serde field order). -/
def jsonData (dir : List (List Char × CountryNets)) :
    List (List Char × List (List Char) × List (List Char)) :=
  dir.map (fun e => (e.1, e.2.ipv4.map serIpNetStr, e.2.ipv6.map serIpNetStr))

inductive Cloak.Action where
  | Allow
  | Block
deriving DecidableEq

/-- One element line of a rendered set:
`writeln!(file, "    {},", ip.0)`. -/
def nftElementLine (ip : IpNetwork) : List Char :=
  "    ".toList ++ displayIpNetwork ip ++ [',']

/-- `generate_nftables`, one list entry per `writeln!` line, iterating
the directory in the order given (`HashMap::values` order). -/
def generate_nftables (map : List (List Char × CountryNets)) (action : Cloak.Action) :
    List (List Char) :=
  ["table inet filter \x7b".toList]
  ++ ["  set country_ipv4 \x7b type ipv4_addr; flags interval; elements = \x7b".toList]
  ++ map.flatMap (fun kv => kv.2.ipv4.map nftElementLine)
  ++ ["  \x7d \x7d".toList]
  ++ ["  set country_ipv6 \x7b type ipv6_addr; flags interval; elements = \x7b".toList]
  ++ map.flatMap (fun kv => kv.2.ipv6.map nftElementLine)
  ++ ["  \x7d \x7d".toList]
  ++ ["  chain input \x7b".toList, "    type filter hook input priority 0;".toList]
  ++ (match action with
      | .Block =>
        ["    ip saddr @country_ipv4 drop;".toList,
         "    ip6 saddr @country_ipv6 drop;".toList,
         "    accept;".toList]
      | .Allow =>
        ["    ip saddr @country_ipv4 accept;".toList,
         "    ip6 saddr @country_ipv6 accept;".toList,
         "    drop;".toList])
  ++ ["  \x7d".toList, "\x7d".toList]

/-- The two output artifacts of `main` (JSON data file shape and rule
file lines); both `File::create` calls happen only after the country
loop has completed, so a fetch failure yields neither. -/
def run_main (f : List Char → RawFetchResult)
    (countries : List (List Char × List Char)) (action : Cloak.Action) :
    Except FetchError
      (List (List Char × List (List Char) × List (List Char)) ×
        List (List Char)) :=
  match runPipeline f countries with
  | .error e => .error e
  | .ok dir => .ok (jsonData dir, generate_nftables dir action)

def flatV4 (map : List (List Char × CountryNets)) : List IpNetwork :=
  map.flatMap (fun kv => kv.2.ipv4)

def flatV6 (map : List (List Char × CountryNets)) : List IpNetwork :=
  map.flatMap (fun kv => kv.2.ipv6)

def v4SetHeader : List Char :=
  "  set country_ipv4 \x7b type ipv4_addr; flags interval; elements = \x7b".toList

def v6SetHeader : List Char :=
  "  set country_ipv6 \x7b type ipv6_addr; flags interval; elements = \x7b".toList

def setClose : List Char := "  \x7d \x7d".toList

/-- Inverse of the element-line decoration: drop the four-space indent
and the trailing comma. -/
def stripElem (l : List Char) : List Char := (l.drop 4).dropLast

/-- The element texts of the rendered IPv4 set: the lines strictly
between the set header and its closing line, undecorated. -/
def extractV4Elements (lines : List (List Char)) : List (List Char) :=
  (((lines.dropWhile (fun x => x ≠ v4SetHeader)).drop 1).takeWhile
    (fun x => x ≠ setClose)).map stripElem

/-- The element texts of the rendered IPv6 set. -/
def extractV6Elements (lines : List (List Char)) : List (List Char) :=
  (((lines.dropWhile (fun x => x ≠ v6SetHeader)).drop 1).takeWhile
    (fun x => x ≠ setClose)).map stripElem

def isErr : RawFetchResult → Bool
  | .ok _ => false
  | _ => true

/-- URL of the first fetch that would fail, in processing order. -/
def firstFailUrl (f : List Char → RawFetchResult) :
    List (List Char × List Char) → Option (List Char)
  | [] => none
  | (cc, _) :: rest =>
    if isErr (f (ipv4Url cc)) then some (ipv4Url cc)
    else if isErr (f (ipv6Url cc)) then some (ipv6Url cc)
    else firstFailUrl f rest

theorem flatMap_map {α β γ : Type} (l : List α) (g : α → List β) (f : β → γ) :
    l.flatMap (fun x => (g x).map f) = (l.flatMap g).map f := by
  induction l with
  | nil => rfl
  | cons x xs ih => simp [List.flatMap_cons, ih]

theorem nftElementLine_shape (ip : IpNetwork) :
    nftElementLine ip
      = ' ' :: ' ' :: ' ' :: ' ' :: (displayIpNetwork ip ++ [',']) := by
  show ([' ', ' ', ' ', ' '] : List Char) ++ displayIpNetwork ip ++ [','] = _
  simp

theorem nftElementLine_third (ip : IpNetwork) :
    (nftElementLine ip)[2]? = some ' ' := by
  rw [nftElementLine_shape]
  rfl

theorem nftElementLine_ne_close (ip : IpNetwork) : nftElementLine ip ≠ setClose := by
  intro h
  have h3 := nftElementLine_third ip
  rw [h] at h3
  exact absurd h3 (by decide)

theorem nftElementLine_ne_v6hdr (ip : IpNetwork) :
    nftElementLine ip ≠ v6SetHeader := by
  intro h
  have h3 := nftElementLine_third ip
  rw [h] at h3
  exact absurd h3 (by decide)

theorem dropWhile_append_all {α : Type} (p : α → Bool) :
    ∀ (xs l : List α), (∀ x ∈ xs, p x = true) →
      (xs ++ l).dropWhile p = l.dropWhile p := by
  intro xs
  induction xs with
  | nil => intro l _; rfl
  | cons x xs ih =>
    intro l hall
    have hx : p x = true := hall x (by simp)
    simp only [List.cons_append, List.dropWhile_cons, hx, if_pos]
    exact ih l (fun z hz => hall z (by simp [hz]))

theorem generate_shape (d : List (List Char × CountryNets)) (a : Cloak.Action) :
    generate_nftables d a =
      "table inet filter \x7b".toList :: v4SetHeader ::
        ((flatV4 d).map nftElementLine ++ setClose :: v6SetHeader ::
          ((flatV6 d).map nftElementLine ++ setClose ::
            "  chain input \x7b".toList ::
              "    type filter hook input priority 0;".toList ::
                ((match a with
                  | .Block =>
                    ["    ip saddr @country_ipv4 drop;".toList,
                     "    ip6 saddr @country_ipv6 drop;".toList,
                     "    accept;".toList]
                  | .Allow =>
                    ["    ip saddr @country_ipv4 accept;".toList,
                     "    ip6 saddr @country_ipv6 accept;".toList,
                     "    drop;".toList]) ++
                  ["  \x7d".toList, "\x7d".toList]))) := by
  simp only [generate_nftables, flatMap_map, v4SetHeader, v6SetHeader, setClose,
    flatV4, flatV6]
  simp [List.append_assoc]

theorem stripElem_nftElementLine (ip : IpNetwork) :
    stripElem (nftElementLine ip) = displayIpNetwork ip := by
  rw [nftElementLine_shape]
  show (displayIpNetwork ip ++ [',']).dropLast = displayIpNetwork ip
  simp

theorem extract_elements_spec (d : List (List Char × CountryNets))
    (a : Cloak.Action) :
    extractV4Elements (generate_nftables d a)
        = (flatV4 d).map displayIpNetwork ∧
      extractV6Elements (generate_nftables d a)
        = (flatV6 d).map displayIpNetwork := by
  rw [generate_shape]
  constructor
  · unfold extractV4Elements
    rw [List.dropWhile_cons]
    rw [if_pos (by decide)]
    rw [List.dropWhile_cons]
    rw [if_neg (by decide)]
    simp only [List.drop_succ_cons, List.drop_zero]
    rw [takeWhile_append_stop _ _ _ _
      (by
        intro x hx
        simp only [List.mem_map] at hx
        obtain ⟨ip, -, rfl⟩ := hx
        simpa using nftElementLine_ne_close ip)
      (by simp)]
    rw [List.map_map]
    apply List.map_congr_left
    intro ip _
    exact stripElem_nftElementLine ip
  · unfold extractV6Elements
    rw [List.dropWhile_cons]
    rw [if_pos (by decide)]
    rw [List.dropWhile_cons]
    rw [if_pos (by decide)]
    rw [dropWhile_append_all _ _ _
      (by
        intro x hx
        simp only [List.mem_map] at hx
        obtain ⟨ip, -, rfl⟩ := hx
        simpa using nftElementLine_ne_v6hdr ip)]
    rw [List.dropWhile_cons]
    rw [if_pos (by decide)]
    rw [List.dropWhile_cons]
    rw [if_neg (by decide)]
    simp only [List.drop_succ_cons, List.drop_zero]
    rw [takeWhile_append_stop _ _ _ _
      (by
        intro x hx
        simp only [List.mem_map] at hx
        obtain ⟨ip, -, rfl⟩ := hx
        simpa using nftElementLine_ne_close ip)
      (by simp)]
    rw [List.map_map]
    apply List.map_congr_left
    intro ip _
    exact stripElem_nftElementLine ip

theorem generate_chain_drop (d : List (List Char × CountryNets)) (a : Cloak.Action) :
    (generate_nftables d a).drop
        (5 + (flatV4 d).length + (flatV6 d).length) =
      "  chain input \x7b".toList ::
        "    type filter hook input priority 0;".toList ::
          ((match a with
            | .Block =>
              ["    ip saddr @country_ipv4 drop;".toList,
               "    ip6 saddr @country_ipv6 drop;".toList,
               "    accept;".toList]
            | .Allow =>
              ["    ip saddr @country_ipv4 accept;".toList,
               "    ip6 saddr @country_ipv6 accept;".toList,
               "    drop;".toList]) ++
            ["  \x7d".toList, "\x7d".toList]) := by
  have hsplit : generate_nftables d a =
      ("table inet filter \x7b".toList :: v4SetHeader ::
        ((flatV4 d).map nftElementLine ++ setClose :: v6SetHeader ::
          ((flatV6 d).map nftElementLine ++ [setClose]))) ++
      ("  chain input \x7b".toList ::
        "    type filter hook input priority 0;".toList ::
          ((match a with
            | .Block =>
              ["    ip saddr @country_ipv4 drop;".toList,
               "    ip6 saddr @country_ipv6 drop;".toList,
               "    accept;".toList]
            | .Allow =>
              ["    ip saddr @country_ipv4 accept;".toList,
               "    ip6 saddr @country_ipv6 accept;".toList,
               "    drop;".toList]) ++
            ["  \x7d".toList, "\x7d".toList])) := by
    rw [generate_shape]
    simp [List.append_assoc]
  rw [hsplit]
  have hlen : ("table inet filter \x7b".toList :: v4SetHeader ::
      ((flatV4 d).map nftElementLine ++ setClose :: v6SetHeader ::
        ((flatV6 d).map nftElementLine ++ [setClose]))).length
      = 5 + (flatV4 d).length + (flatV6 d).length := by
    simp [List.length_cons, List.length_append, List.length_map]
    omega
  rw [← hlen, List.drop_left]

theorem generate_flats_determined (d1 d2 : List (List Char × CountryNets))
    (a : Cloak.Action) (h4 : flatV4 d1 = flatV4 d2) (h6 : flatV6 d1 = flatV6 d2) :
    generate_nftables d1 a = generate_nftables d2 a := by
  rw [generate_shape, generate_shape, h4, h6]

theorem collectNets_skip (l : List Char)
    (h : rustTrim l = [] ∨ parseIpNetwork (rustTrim l) = none) :
    ∀ (pre post : List (List Char)),
      collectNets (pre ++ l :: post) = collectNets (pre ++ post) := by
  intro pre
  induction pre with
  | nil =>
    intro post
    rcases h with h | h
    · simp [collectNets, h]
    · by_cases ht : rustTrim l = []
      · simp [collectNets, ht]
      · simp [collectNets, ht, h]
  | cons p pre ih =>
    intro post
    simp only [List.cons_append, collectNets, List.append_eq]
    rw [ih post]

theorem collectNets_mem (lines : List (List Char)) (n : IpNetwork)
    (h : n ∈ collectNets lines) :
    ∃ l ∈ lines, parseIpNetwork (rustTrim l) = some n := by
  induction lines with
  | nil => simp [collectNets] at h
  | cons line rest ih =>
    simp only [collectNets] at h
    by_cases ht : rustTrim line = []
    · rw [if_pos ht] at h
      obtain ⟨l, hl, hp⟩ := ih h
      exact ⟨l, by simp [hl], hp⟩
    · rw [if_neg ht] at h
      cases hp : parseIpNetwork (rustTrim line) with
      | some net =>
        rw [hp] at h
        rcases List.mem_cons.mp h with rfl | h
        · exact ⟨line, by simp, hp⟩
        · obtain ⟨l, hl, hpl⟩ := ih h
          exact ⟨l, by simp [hl], hpl⟩
      | none =>
        rw [hp] at h
        obtain ⟨l, hl, hpl⟩ := ih h
        exact ⟨l, by simp [hl], hpl⟩

theorem firstFailUrl_of_mem (f : List Char → RawFetchResult)
    (countries : List (List Char × List Char))
    (h : ∃ c ∈ countries, isErr (f (ipv4Url c.1)) = true ∨
      isErr (f (ipv6Url c.1)) = true) :
    ∃ u, firstFailUrl f countries = some u := by
  induction countries with
  | nil => simp at h
  | cons c rest ih =>
    obtain ⟨c0, hc0, hfail⟩ := h
    simp only [firstFailUrl]
    by_cases h4 : isErr (f (ipv4Url c.1)) = true
    · exact ⟨ipv4Url c.1, by rw [if_pos h4]⟩
    · rw [if_neg h4]
      by_cases h6 : isErr (f (ipv6Url c.1)) = true
      · exact ⟨ipv6Url c.1, by rw [if_pos h6]⟩
      · rw [if_neg h6]
        rcases List.mem_cons.mp hc0 with rfl | hc0
        · rcases hfail with hf | hf
          · exact absurd hf h4
          · exact absurd hf h6
        · exact ih ⟨c0, hc0, hfail⟩

theorem runPipeline_fail (f : List Char → RawFetchResult) :
    ∀ (countries : List (List Char × List Char)) (u : List Char),
      firstFailUrl f countries = some u →
      ∃ e, runPipeline f countries = .error e ∧ isErr (f u) = true ∧
        (e.context = "GET ".toList ++ u ∨
          e.context = "read response body ".toList ++ u) := by
  intro countries
  induction countries with
  | nil => intro u h; simp [firstFailUrl] at h
  | cons c rest ih =>
    intro u h
    obtain ⟨cc, name⟩ := c
    simp only [firstFailUrl] at h
    by_cases h4 : isErr (f (ipv4Url cc)) = true
    · rw [if_pos h4, Option.some_inj] at h
      subst h
      cases hf : f (ipv4Url cc) with
      | transportError =>
        refine ⟨⟨"GET ".toList ++ ipv4Url cc⟩, ?_, rfl, Or.inl rfl⟩
        simp [runPipeline, fetch_cidrs, hf]
      | bodyError =>
        refine ⟨⟨"read response body ".toList ++ ipv4Url cc⟩, ?_, rfl, Or.inr rfl⟩
        simp [runPipeline, fetch_cidrs, hf]
      | ok body =>
        rw [hf] at h4
        simp [isErr] at h4
    · rw [if_neg h4] at h
      obtain ⟨body4, hf4⟩ : ∃ b, f (ipv4Url cc) = .ok b := by
        cases hf : f (ipv4Url cc) with
        | ok b => exact ⟨b, rfl⟩
        | transportError => exact absurd (by rw [hf]; rfl) h4
        | bodyError => exact absurd (by rw [hf]; rfl) h4
      by_cases h6 : isErr (f (ipv6Url cc)) = true
      · rw [if_pos h6, Option.some_inj] at h
        subst h
        cases hf : f (ipv6Url cc) with
        | transportError =>
          refine ⟨⟨"GET ".toList ++ ipv6Url cc⟩, ?_, rfl, Or.inl rfl⟩
          simp [runPipeline, fetch_cidrs, hf4, hf]
        | bodyError =>
          refine ⟨⟨"read response body ".toList ++ ipv6Url cc⟩, ?_, rfl, Or.inr rfl⟩
          simp [runPipeline, fetch_cidrs, hf4, hf]
        | ok body =>
          rw [hf] at h6
          simp [isErr] at h6
      · rw [if_neg h6] at h
        obtain ⟨body6, hf6⟩ : ∃ b, f (ipv6Url cc) = .ok b := by
          cases hf : f (ipv6Url cc) with
          | ok b => exact ⟨b, rfl⟩
          | transportError => exact absurd (by rw [hf]; rfl) h6
          | bodyError => exact absurd (by rw [hf]; rfl) h6
        obtain ⟨e, he, hiserr, hctx⟩ := ih u h
        refine ⟨e, ?_, hiserr, hctx⟩
        simp [runPipeline, fetch_cidrs, hf4, hf6, he]

/-- Whether a parsed network is an IPv4 prefix. -/
def isV4net : IpNetwork → Bool
  | .V4 _ => true
  | .V6 _ => false

/-- Family check for the optional result of a line parse (vacuously
true for lines that parse to nothing). -/
def optionIsV4 : Option IpNetwork → Bool
  | some n => isV4net n
  | none => true

theorem mapFlatMap {α β γ : Type} (l : List α) (f : α → β) (g : β → List γ) :
    (l.map f).flatMap g = l.flatMap (fun x => g (f x)) := by
  induction l with
  | nil => rfl
  | cons x xs ih => simp [ih]

def c1net1 : IpNetwork := .V4 ⟨⟨10, 0, 0, 0⟩, ⟨8, by omega⟩⟩

def c1net2 : IpNetwork := .V4 ⟨⟨11, 0, 0, 0⟩, ⟨8, by omega⟩⟩

def c1dirA : List (List Char × CountryNets) :=
  [("aa".toList, ⟨[c1net1], []⟩), ("bb".toList, ⟨[c1net2], []⟩)]

def c1dirB : List (List Char × CountryNets) :=
  [("bb".toList, ⟨[c1net2], []⟩), ("aa".toList, ⟨[c1net1], []⟩)]

def c1dirC : List (List Char × CountryNets) :=
  [("zz".toList, ⟨[c1net1], []⟩), ("qq".toList, ⟨[c1net2], []⟩)]

/-- Claim C1, counterexample: two directories with identical contents
(one a permutation of the other, as arises from `HashMap` iteration
order across runs) render to different rule-file bytes, so the output
is not a function of directory contents, policy and selection alone. -/
theorem c1_counterexample :
    c1dirA.Perm c1dirB ∧
      generate_nftables c1dirA .Block ≠ generate_nftables c1dirB .Block := by
  constructor
  · decide
  · decide

/-- Claim C1, amended: the rendered rule file is a deterministic
function of the policy and of the flattened IPv4 and IPv6 prefix
sequences in directory iteration order; two runs agree byte-for-byte
whenever their iteration orders yield the same flattened sequences
(country keys and grouping do not influence the rule file). -/
theorem c1_amended (d1 d2 : List (List Char × CountryNets)) (a : Cloak.Action)
    (h4 : flatV4 d1 = flatV4 d2) (h6 : flatV6 d1 = flatV6 d2) :
    generate_nftables d1 a = generate_nftables d2 a :=
  generate_flats_determined d1 d2 a h4 h6

/-- Witness for the amended C1 at concrete directories with different
keys but equal flattened sequences. -/
theorem c1_witness :
    generate_nftables c1dirA .Block = generate_nftables c1dirC .Block :=
  c1_amended c1dirA c1dirC .Block (by decide) (by decide)

def c2fetch : List Char → RawFetchResult := fun u =>
  if u = ipv4Url "xx".toList then .ok "2001:db8::/32".toList else .ok []

def c2entry : CountryNets :=
  ⟨[IpNetwork.V6 ⟨⟨0x2001, 0xdb8, 0, 0, 0, 0, 0, 0⟩, ⟨32, by omega⟩⟩], []⟩

/-- Claim C2, counterexample: a fetch whose IPv4 feed body is the IPv6
CIDR `2001:db8::/32` stores an IPv6 prefix in the entry's `ipv4`
sequence — the parser does not restrict the family per feed. -/
theorem c2_counterexample :
    runPipeline c2fetch [("xx".toList, "Testland".toList)]
        = .ok [("xx".toList, c2entry)] ∧
      ∃ n ∈ c2entry.ipv4, isV4net n = false := by
  constructor
  · rfl
  · exact ⟨IpNetwork.V6 ⟨⟨0x2001, 0xdb8, 0, 0, 0, 0, 0, 0⟩, ⟨32, by omega⟩⟩,
      by simp [c2entry], rfl⟩

/-- Family check for the optional result of a line parse, IPv6 side
(vacuously true for lines that parse to nothing). -/
def optionIsV6 : Option IpNetwork → Bool
  | some n => !isV4net n
  | none => true

/-- Claim C2, amended: a prefix stored in a family's sequence is
whatever its feed line parsed to; if every line of the IPv4 feed body
that parses at all parses to an IPv4 prefix, then every stored `ipv4`
prefix is IPv4, and symmetrically, if every parsing line of the IPv6
feed body parses to an IPv6 prefix, then every stored `ipv6` prefix is
IPv6 — the guarantee is conditional on the feed body, not
unconditional. -/
theorem c2_amended (body : List Char) :
    ((∀ l ∈ rustLines body, optionIsV4 (parseIpNetwork (rustTrim l)) = true) →
        ∀ n ∈ collectNets (rustLines body), isV4net n = true) ∧
      ((∀ l ∈ rustLines body, optionIsV6 (parseIpNetwork (rustTrim l)) = true) →
        ∀ n ∈ collectNets (rustLines body), isV4net n = false) := by
  constructor
  · intro h n hn
    obtain ⟨l, hl, hp⟩ := collectNets_mem _ n hn
    have hopt := h l hl
    rw [hp] at hopt
    exact hopt
  · intro h n hn
    obtain ⟨l, hl, hp⟩ := collectNets_mem _ n hn
    have hopt := h l hl
    rw [hp] at hopt
    simpa [optionIsV6] using hopt

/-- Witness for the amended C2 on a concrete IPv4-only feed body and a
concrete IPv6-only feed body. -/
theorem c2_witness :
    ((collectNets (rustLines "10.0.0.0/8\ngarbage".toList)).all
        (fun n => isV4net n)) = true ∧
      ((collectNets (rustLines "2001:db8::/32\ngarbage".toList)).all
        (fun n => !isV4net n)) = true :=
  ⟨List.all_eq_true.mpr
    (fun n hn =>
      (c2_amended "10.0.0.0/8\ngarbage".toList).1 (by decide) n hn),
   List.all_eq_true.mpr
    (fun n hn => by
      have := (c2_amended "2001:db8::/32\ngarbage".toList).2 (by decide) n hn
      simpa using this)⟩

/-- Claim C3: if any country's IPv4 or IPv6 fetch fails, the run
aborts with a `FetchError` whose context carries the failing fetch's
URL (`GET {url}` or `read response body {url}`, the first failure in
processing order), and `run_main` produces no output pair — neither
the JSON data file nor the rule file is written. -/
theorem c3 (f : List Char → RawFetchResult)
    (countries : List (List Char × List Char)) (action : Cloak.Action)
    (h : ∃ c ∈ countries, isErr (f (ipv4Url c.1)) = true ∨
      isErr (f (ipv6Url c.1)) = true) :
    ∃ u e, firstFailUrl f countries = some u ∧ isErr (f u) = true ∧
      run_main f countries action = .error e ∧
      (e.context = "GET ".toList ++ u ∨
        e.context = "read response body ".toList ++ u) := by
  obtain ⟨u, hu⟩ := firstFailUrl_of_mem f countries h
  obtain ⟨e, he, hiserr, hctx⟩ := runPipeline_fail f countries u hu
  exact ⟨u, e, hu, hiserr, by simp [run_main, he], hctx⟩

def c3fetch : List Char → RawFetchResult := fun u =>
  if u = ipv4Url "xx".toList then .transportError else .ok []

/-- Witness for C3 at a concrete failing oracle. -/
theorem c3_witness :
    ∃ u e, firstFailUrl c3fetch [("xx".toList, "Testland".toList)] = some u ∧
      isErr (c3fetch u) = true ∧
      run_main c3fetch [("xx".toList, "Testland".toList)] .Block = .error e ∧
      (e.context = "GET ".toList ++ u ∨
        e.context = "read response body ".toList ++ u) :=
  c3 c3fetch [("xx".toList, "Testland".toList)] .Block
    ⟨("xx".toList, "Testland".toList), by simp, Or.inl rfl⟩

/-- Claim C4: the rendered IPv4 set's element texts are exactly the
concatenation, in directory iteration order, of every entry's IPv4
prefixes (duplicates preserved, nothing added or removed), and likewise
for the IPv6 set. -/
theorem c4 (d : List (List Char × CountryNets)) (a : Cloak.Action) :
    extractV4Elements (generate_nftables d a)
        = (flatV4 d).map displayIpNetwork ∧
      extractV6Elements (generate_nftables d a)
        = (flatV6 d).map displayIpNetwork :=
  extract_elements_spec d a

/-- Claim C5: everything after the two set blocks is exactly the chain
with its three policy rules in fixed order — IPv4 match, IPv6 match,
then the default — drop/drop/accept under Block and
accept/accept/drop under Allow, regardless of directory contents. -/
theorem c5 (d : List (List Char × CountryNets)) :
    (generate_nftables d .Block).drop
        (5 + (flatV4 d).length + (flatV6 d).length)
      = ["  chain input \x7b".toList,
         "    type filter hook input priority 0;".toList,
         "    ip saddr @country_ipv4 drop;".toList,
         "    ip6 saddr @country_ipv6 drop;".toList,
         "    accept;".toList,
         "  \x7d".toList, "\x7d".toList] ∧
    (generate_nftables d .Allow).drop
        (5 + (flatV4 d).length + (flatV6 d).length)
      = ["  chain input \x7b".toList,
         "    type filter hook input priority 0;".toList,
         "    ip saddr @country_ipv4 accept;".toList,
         "    ip6 saddr @country_ipv6 accept;".toList,
         "    drop;".toList,
         "  \x7d".toList, "\x7d".toList] :=
  ⟨generate_chain_drop d .Block, generate_chain_drop d .Allow⟩

/-- Claim C6: a feed line that is empty after trimming, or fails to
parse as a CIDR, contributes no prefix and no error — the surrounding
lines parse as if it were absent, and a fetch with a readable body
always succeeds. -/
theorem c6 (l : List Char)
    (h : rustTrim l = [] ∨ parseIpNetwork (rustTrim l) = none) :
    (∀ (pre post : List (List Char)),
        collectNets (pre ++ l :: post) = collectNets (pre ++ post)) ∧
      (∀ (f : List Char → RawFetchResult) (url body : List Char),
        f url = .ok body →
          fetch_cidrs f url = .ok (collectNets (rustLines body))) := by
  refine ⟨collectNets_skip l h, ?_⟩
  intro f url body hb
  simp [fetch_cidrs, hb]

/-- Witness for C6 on a concrete malformed line. -/
theorem c6_witness :
    collectNets (["1.2.3.0/24".toList] ++ "not-a-cidr".toList :: [])
      = collectNets (["1.2.3.0/24".toList] ++ []) :=
  (c6 "not-a-cidr".toList (Or.inr (by decide))).1 ["1.2.3.0/24".toList] []

/-- Claim C7: every canonical CIDR string (a string some network
renders to) parses back to a network that re-renders to the same
string, for both address families. -/
theorem c7 (S : List Char) (h : ∃ n, displayIpNetwork n = S) :
    ∃ n, parseIpNetwork S = some n ∧ displayIpNetwork n = S := by
  obtain ⟨n, rfl⟩ := h
  exact ⟨n, parse_display_roundtrip n, rfl⟩

/-- Witness for C7 at the concrete canonical string `10.0.0.0/8`. -/
theorem c7_witness :
    ∃ n, parseIpNetwork "10.0.0.0/8".toList = some n ∧
      displayIpNetwork n = "10.0.0.0/8".toList :=
  c7 "10.0.0.0/8".toList ⟨.V4 ⟨⟨10, 0, 0, 0⟩, ⟨8, by omega⟩⟩, by decide⟩

/-- Claim C8: a bare address line with no `/` separator is accepted,
producing a full-length prefix — `/32` for an IPv4 address and `/128`
for an IPv6 address. -/
theorem c8 :
    (∀ (l : List Char) (a : Ipv4Addr), parseIpv4Addr l = some a →
        parseIpNetwork l = some (.V4 ⟨a, ⟨32, by omega⟩⟩)) ∧
      (∀ (l : List Char) (a : Ipv6Addr), parseIpv6Addr l = some a →
        parseIpNetwork l = some (.V6 ⟨a, ⟨128, by omega⟩⟩)) :=
  ⟨parse_bare_v4, parse_bare_v6⟩

/-- Witness for C8 on the bare addresses `10.0.0.0` and `2001:db8::1`. -/
theorem c8_witness :
    parseIpNetwork "10.0.0.0".toList
        = some (.V4 ⟨⟨10, 0, 0, 0⟩, ⟨32, by omega⟩⟩) ∧
      parseIpNetwork "2001:db8::1".toList
        = some (.V6 ⟨⟨0x2001, 0xdb8, 0, 0, 0, 0, 0, 1⟩, ⟨128, by omega⟩⟩) :=
  ⟨c8.1 "10.0.0.0".toList ⟨10, 0, 0, 0⟩ (by decide),
   c8.2 "2001:db8::1".toList ⟨0x2001, 0xdb8, 0, 0, 0, 0, 0, 1⟩ (by decide)⟩

/-- Claim C9: the element text of each prefix in the rule file equals
character-for-character the CIDR string serialized for that entry in
the JSON data file — both render through the same display. -/
theorem c9 (d : List (List Char × CountryNets)) (a : Cloak.Action) :
    extractV4Elements (generate_nftables d a)
        = (jsonData d).flatMap (fun e => e.2.1) ∧
      extractV6Elements (generate_nftables d a)
        = (jsonData d).flatMap (fun e => e.2.2) := by
  have h := extract_elements_spec d a
  have h1 : (jsonData d).flatMap (fun e => e.2.1)
      = (flatV4 d).map displayIpNetwork := by
    unfold jsonData flatV4
    rw [mapFlatMap]
    exact flatMap_map d (fun kv => kv.2.ipv4) serIpNetStr
  have h2 : (jsonData d).flatMap (fun e => e.2.2)
      = (flatV6 d).map displayIpNetwork := by
    unfold jsonData flatV6
    rw [mapFlatMap]
    exact flatMap_map d (fun kv => kv.2.ipv6) serIpNetStr
  exact ⟨h1 ▸ h.1, h2 ▸ h.2⟩

/-- Claim C10: on the empty directory the renderer still emits the
complete skeleton — table declaration, both set declarations with empty
element lists, and the chain with its three policy rules — for either
policy. -/
theorem c10 :
    generate_nftables [] .Block
        = ["table inet filter \x7b".toList,
           "  set country_ipv4 \x7b type ipv4_addr; flags interval; elements = \x7b".toList,
           "  \x7d \x7d".toList,
           "  set country_ipv6 \x7b type ipv6_addr; flags interval; elements = \x7b".toList,
           "  \x7d \x7d".toList,
           "  chain input \x7b".toList,
           "    type filter hook input priority 0;".toList,
           "    ip saddr @country_ipv4 drop;".toList,
           "    ip6 saddr @country_ipv6 drop;".toList,
           "    accept;".toList,
           "  \x7d".toList, "\x7d".toList] ∧
      generate_nftables [] .Allow
        = ["table inet filter \x7b".toList,
           "  set country_ipv4 \x7b type ipv4_addr; flags interval; elements = \x7b".toList,
           "  \x7d \x7d".toList,
           "  set country_ipv6 \x7b type ipv6_addr; flags interval; elements = \x7b".toList,
           "  \x7d \x7d".toList,
           "  chain input \x7b".toList,
           "    type filter hook input priority 0;".toList,
           "    ip saddr @country_ipv4 accept;".toList,
           "    ip6 saddr @country_ipv6 accept;".toList,
           "    drop;".toList,
           "  \x7d".toList, "\x7d".toList] :=
  ⟨rfl, rfl⟩
